import Mathlib

/-!
Shallow embedding of `solarosc` from `asteroseismology/solarosc.py`.

The Python function simulates stochastically excited damped oscillation
modes.  Machine floats are modelled by exact rationals; the transcendental
functions (`np.exp`, `np.sqrt`, `math.sin`, `math.cos`) and the constant
`math.pi` are abstract oracles, since every claim under study is about the
control and data flow of the recurrence, not about properties of `exp`.
The shared sequential random source is modelled by two streams:
`g : Nat → ℚ` for the standard-normal draws (numpy's `normal(loc, scale)`
returns `loc + scale * z` for a standard draw `z`) and `u : Nat → ℚ` for
the uniform draws of `uniform(low, high, n) = low + (high - low) * u`,
together with a counter threaded through the computation in draw order.
The unbounded `while` loop is embedded with explicit fuel; exhausting the
fuel is reported as `SimErr.noFuel`, and Python runtime exceptions raised
by the source (`max`/`min` of an empty sequence, indexing an empty `time`
array, indexing a scalar float) are reported as the corresponding errors.
-/

namespace SolarOsc

/-- Oracles for the transcendental float operations used by the source. -/
structure Oracles where
  exp : ℚ → ℚ
  sqrt : ℚ → ℚ
  sin : ℚ → ℚ
  cos : ℚ → ℚ
  pi : ℚ

/-- Outcomes other than a normal return.  `valueError`, `indexError` and
`typeError` model the Python exceptions the source can raise; `noFuel`
models non-termination of the pending-kick `while` loop (the embedding
runs it on explicit fuel); `domainError` is the rejected-input outcome
that the specification describes — the source never produces it. -/
inductive SimErr where
  | valueError : SimErr
  | indexError : SimErr
  | typeError : SimErr
  | domainError : SimErr
  | noFuel : SimErr
deriving DecidableEq

/-- Per-mode immutable data: `freq[i]`, `eta[i]`, `kick_amplitude[i]`. -/
structure ModeParam where
  freq : ℚ
  eta : ℚ
  ka : ℚ
deriving DecidableEq

/-- Per-mode mutable state of the main pass: the quadrature components
`amplsin[i]`, `amplcos[i]` and the kick clock `last_kicktime[i]`,
`next_kicktime[i]`. -/
structure ModeState where
  amplsin : ℚ
  amplcos : ℚ
  lastKick : ℚ
  nextKick : ℚ
deriving DecidableEq

/-- The warm-up quadrature variable: `amplsin`/`amplcos` start as the
Python scalar `0.0` and become numpy arrays after the first broadcasted
update (source lines 95-96 and 110-112). -/
inductive Quad where
  | scalar : ℚ → Quad
  | vec : List ℚ → Quad
deriving DecidableEq

/-- Indexing `q[i]`: a Python float is not subscriptable, so the scalar
case fails (TypeError); the array case is ordinary list indexing. -/
def Quad.get? : Quad → Nat → Option ℚ
  | .scalar _, _ => none
  | .vec xs, i => xs.get? i

/-- `kicktimestep = (1.0 / max(eta)) / 100.0` (source line 86);
`max` of an empty sequence raises, hence the `Option`. -/
def kicktimestepOf (eta : List ℚ) : Option ℚ :=
  eta.max?.map (fun m => 1 / m / 100)

/-- `kick_amplitude = ampl * np.sqrt(kicktimestep * eta)` (source line 97).
numpy broadcasting requires `ampl` and `eta` to have equal shapes and
raises a ValueError otherwise, so this elementwise model is exact for
equal-length `ampl`/`eta`; mismatched lengths lie outside the modelled
domain and every statement about this stage restricts to equal lengths. -/
def kickAmplitude (O : Oracles) (step : ℚ) (ampl eta : List ℚ) : List ℚ :=
  List.zipWith (fun a e => a * O.sqrt (step * e)) ampl eta

/-- `damp = np.exp(-eta * kicktimestep)` (source line 104). -/
def dampWarm (O : Oracles) (step : ℚ) (eta : List ℚ) : List ℚ :=
  eta.map (fun e => O.exp (-(e * step)))

/-- `Nwarmup = min(20000, int(floor(1.0 / min(eta) / kicktimestep)))`
(source line 105); `min` of an empty sequence raises. -/
def NwarmupOf (eta : List ℚ) (step : ℚ) : Option ℤ :=
  eta.min?.map (fun mn => min 20000 ⌊1 / mn / step⌋)

/-- One elementwise update `damp * xs + ka * z` on array data. -/
def quadStepVec (damp ka xs z : List ℚ) : List ℚ :=
  List.zipWith (fun dk xz => dk.1 * xz.1 + dk.2 * xz.2) (damp.zip ka) (xs.zip z)

/-- One warm-up update `q := damp * q + normal(zeros, ka)` with numpy
broadcasting: a scalar `q` is broadcast against the `damp` array. -/
def quadStep (damp ka : List ℚ) (q : Quad) (z : List ℚ) : Quad :=
  match q with
  | .scalar x => .vec (quadStepVec damp ka (List.replicate damp.length x) z)
  | .vec xs => .vec (quadStepVec damp ka xs z)

/-- The warm-up loop (source lines 110-112): each iteration first updates
`amplsin` with a fresh vector of `damp.length` standard-normal draws, then
`amplcos` with the next such vector; the counter advances by one per draw.
`normal(np.zeros(Nmode), kick_amplitude)` broadcasts, which requires
`Nmode` and `kick_amplitude` to have compatible shapes and raises a
ValueError otherwise; this model is exact on the equal-length domain the
statements about it restrict to. -/
def warmup (damp ka : List ℚ) (g : Nat → ℚ) :
    Nat → Quad × Quad × Nat → Quad × Quad × Nat
  | 0, st => st
  | n + 1, (qs, qc, cnt) =>
    let M := damp.length
    let zs := (List.range M).map (fun i => g (cnt + i))
    let zc := (List.range M).map (fun i => g (cnt + M + i))
    warmup damp ka g n (quadStep damp ka qs zs, quadStep damp ka qc zc, cnt + 2 * M)

/-- The pending-kick `while` loop for one mode at one output time
(source lines 138-145), run on explicit fuel: while
`next_kicktime[i] <= time[j]`, damp over the elapsed kick interval, add a
scaled standard-normal kick to each quadrature component (two draws), and
advance the kick clock by `kicktimestep`. -/
def kickLoop (O : Oracles) (g : Nat → ℚ) (e step ka t : ℚ) :
    Nat → ModeState × Nat → Option (ModeState × Nat)
  | 0, (st, cnt) => if st.nextKick ≤ t then none else some (st, cnt)
  | fuel + 1, (st, cnt) =>
    if st.nextKick ≤ t then
      let dt := st.nextKick - st.lastKick
      let damp := O.exp (-(e * dt))
      kickLoop O g e step ka t fuel
        ({ amplsin := damp * st.amplsin + ka * g cnt,
           amplcos := damp * st.amplcos + ka * g (cnt + 1),
           lastKick := st.nextKick,
           nextKick := st.nextKick + step }, cnt + 2)
    else some (st, cnt)

/-- The sampled contribution of one mode at output time `t` (source lines
149-152): `exp(-eta * (t - last_kicktime)) * (amplsin * sin(2 pi freq t)
+ amplcos * cos(2 pi freq t))`, added into `signal[j]`. -/
def modeContrib (O : Oracles) (p : ModeParam) (st : ModeState) (t : ℚ) : ℚ :=
  O.exp (-(p.eta * (t - st.lastKick))) *
    (st.amplsin * O.sin (2 * O.pi * p.freq * t) +
      st.amplcos * O.cos (2 * O.pi * p.freq * t))

/-- The inner `for i in range(Nmode)` body for one output time `t`
(source lines 132-152): for each mode run the pending-kick loop, then
accumulate the mode's sampled contribution into the running `signal[j]`. -/
def timeStep (O : Oracles) (g : Nat → ℚ) (step t : ℚ) (fuel : Nat) :
    List (ModeParam × ModeState) → Nat → ℚ → Option (List ModeState × Nat × ℚ)
  | [], cnt, acc => some ([], cnt, acc)
  | (p, st) :: rest, cnt, acc =>
    match kickLoop O g p.eta step p.ka t fuel (st, cnt) with
    | none => none
    | some (st2, cnt2) =>
      match timeStep O g step t fuel rest cnt2 (acc + modeContrib O p st2 t) with
      | none => none
      | some (sts, cnt3, v) => some (st2 :: sts, cnt3, v)

/-- Specification-side companion of `timeStep`: the same per-mode
pending-kick evolution with the sampling step omitted. -/
def kicksOnly (O : Oracles) (g : Nat → ℚ) (step t : ℚ) (fuel : Nat) :
    List (ModeParam × ModeState) → Nat → Option (List ModeState × Nat)
  | [], cnt => some ([], cnt)
  | (p, st) :: rest, cnt =>
    match kickLoop O g p.eta step p.ka t fuel (st, cnt) with
    | none => none
    | some (st2, cnt2) =>
      match kicksOnly O g step t fuel rest cnt2 with
      | none => none
      | some (sts, cnt3) => some (st2 :: sts, cnt3)

/-- The outer `for j in range(Ntime)` loop (source lines 128-152):
process the output times in order, building the signal list. -/
def mainPass (O : Oracles) (g : Nat → ℚ) (step : ℚ) (fuel : Nat)
    (params : List ModeParam) :
    List ℚ → List ModeState → Nat → Option (List ℚ × List ModeState × Nat)
  | [], sts, cnt => some ([], sts, cnt)
  | t :: ts, sts, cnt =>
    match timeStep O g step t fuel (params.zip sts) cnt 0 with
    | none => none
    | some (sts2, cnt2, v) =>
      match mainPass O g step fuel params ts sts2 cnt2 with
      | none => none
      | some (sig, sts3, cnt3) => some (v :: sig, sts3, cnt3)

/-- Specification-side trace of the main pass: the list, indexed by output
time, of the per-mode states immediately after the pending-kick loops
(i.e. immediately before the sampling step) at that output time. -/
def stateTrace (O : Oracles) (g : Nat → ℚ) (step : ℚ) (fuel : Nat)
    (params : List ModeParam) :
    List ℚ → List ModeState → Nat → Option (List (List ModeState))
  | [], _, _ => some []
  | t :: ts, sts, cnt =>
    match kicksOnly O g step t fuel (params.zip sts) cnt with
    | none => none
    | some (sts2, cnt2) =>
      match stateTrace O g step fuel params ts sts2 cnt2 with
      | none => none
      | some tr => some (sts2 :: tr)

/-- Assemble the per-mode main-pass states from the warm-up quadrature
arrays and the initial kick clocks: for each mode index, `amplsin[i]`,
`amplcos[i]`, `last_kicktime[i]`, and `next_kicktime[i] = last_kicktime[i]
+ kicktimestep` (source line 120).  Indexing a scalar quadrature value
fails. -/
def buildStates (qs qc : Quad) (lastK : List ℚ) (step : ℚ) :
    List Nat → Option (List ModeState)
  | [] => some []
  | i :: rest =>
    match qs.get? i, qc.get? i, lastK.get? i with
    | some s, some c, some l =>
      (buildStates qs qc lastK step rest).map
        (fun sts => { amplsin := s, amplcos := c, lastKick := l,
                      nextKick := l + step : ModeState } :: sts)
    | _, _, _ => none

/-- Everything the source does before the main `for j` loop: derive
`kicktimestep` and `kick_amplitude`, run the warm-up, draw the initial
kick clocks `last_kicktime = uniform(time[0] - kicktimestep, time[0],
Nmode)` (source line 119), and package the per-mode parameters and
states together with the random-draw counter. -/
def prepared (O : Oracles) (g u : Nat → ℚ) (time freq ampl eta : List ℚ) :
    Except SimErr (ℚ × List ModeParam × List ModeState × Nat) :=
  match kicktimestepOf eta with
  | none => .error .valueError
  | some step =>
    let ka := kickAmplitude O step ampl eta
    let damp := dampWarm O step eta
    match NwarmupOf eta step with
    | none => .error .valueError
    | some nw =>
      let w := warmup damp ka g nw.toNat (.scalar 0, .scalar 0, 0)
      match time.head? with
      | none => .error .indexError
      | some t0 =>
        let M := freq.length
        let lastK := (List.range M).map (fun i => (t0 - step) + step * u i)
        match buildStates w.1 w.2.1 lastK step (List.range M) with
        | none => .error .typeError
        | some sts =>
          let params :=
            List.zipWith (fun f ek => { freq := f, eta := ek.1, ka := ek.2 : ModeParam })
              freq (eta.zip ka)
          .ok (step, params, sts, w.2.2)

/-- The whole of `solarosc` (source lines 36-157). -/
def solarosc (O : Oracles) (g u : Nat → ℚ) (fuel : Nat)
    (time freq ampl eta : List ℚ) : Except SimErr (List ℚ) :=
  match prepared O g u time freq ampl eta with
  | .error err => .error err
  | .ok (step, params, sts, cnt) =>
    match mainPass O g step fuel params time sts cnt with
    | none => .error .noFuel
    | some (sig, _, _) => .ok sig

/-- The per-time, per-mode signal superposition: the sum over all modes of
the sampled contribution, computed from the per-mode parameters and the
per-mode post-kick states. -/
def sigSum (O : Oracles) (t : ℚ) (params : List ModeParam)
    (sts : List ModeState) : ℚ :=
  ((params.zip sts).map (fun q => modeContrib O q.1 q.2 t)).sum

/-- Trivial oracle instantiation used to exercise the embedding on
concrete inputs. -/
def Otriv : Oracles :=
  { exp := fun _ => 1, sqrt := fun _ => 1, sin := fun _ => 0,
    cos := fun _ => 1, pi := 0 }

/-- The all-zero standard-normal stream. -/
def gzero : Nat → ℚ := fun _ => 0

/-- The all-zero uniform stream (an admissible numpy draw: `uniform`
returns values in `[0, 1)`). -/
def uzero : Nat → ℚ := fun _ => 0

/-! ### Elementary facts about `List.max?` and `List.min?` over `ℚ` -/

theorem foldl_max_spec (l : List ℚ) (a : ℚ) :
    (a = l.foldl max a ∨ l.foldl max a ∈ l) ∧
      a ≤ l.foldl max a ∧ ∀ b ∈ l, b ≤ l.foldl max a := by
  induction l generalizing a with
  | nil => simp
  | cons x xs ih =>
    simp only [List.foldl_cons, List.mem_cons]
    rcases ih (max a x) with ⟨hmem, hle, hall⟩
    refine ⟨?_, ?_, ?_⟩
    · rcases hmem with h | h
      · rcases max_choice a x with hm | hm
        · left; rw [← h, hm]
        · right; left; rw [← h, hm]
      · right; right; exact h
    · exact le_trans (le_max_left a x) hle
    · intro b hb
      rcases hb with rfl | hb
      · exact le_trans (le_max_right a b) hle
      · exact hall b hb

theorem max?_spec {l : List ℚ} {m : ℚ} (h : l.max? = some m) :
    m ∈ l ∧ ∀ b ∈ l, b ≤ m := by
  cases l with
  | nil => simp [List.max?] at h
  | cons a as =>
    simp only [List.max?] at h
    rcases foldl_max_spec as a with ⟨hmem, hle, hall⟩
    injection h with h
    subst h
    refine ⟨?_, ?_⟩
    · rcases hmem with h | h
      · rw [← h]; exact List.mem_cons_self a as
      · exact List.mem_cons_of_mem a h
    · intro b hb
      rw [List.mem_cons] at hb
      rcases hb with rfl | hb
      · exact hle
      · exact hall b hb

theorem foldl_min_spec (l : List ℚ) (a : ℚ) :
    (a = l.foldl min a ∨ l.foldl min a ∈ l) ∧
      l.foldl min a ≤ a ∧ ∀ b ∈ l, l.foldl min a ≤ b := by
  induction l generalizing a with
  | nil => simp
  | cons x xs ih =>
    simp only [List.foldl_cons, List.mem_cons]
    rcases ih (min a x) with ⟨hmem, hle, hall⟩
    refine ⟨?_, ?_, ?_⟩
    · rcases hmem with h | h
      · rcases min_choice a x with hm | hm
        · left; rw [← h, hm]
        · right; left; rw [← h, hm]
      · right; right; exact h
    · exact le_trans hle (min_le_left a x)
    · intro b hb
      rcases hb with rfl | hb
      · exact le_trans hle (min_le_right a b)
      · exact hall b hb

theorem min?_spec {l : List ℚ} {m : ℚ} (h : l.min? = some m) :
    m ∈ l ∧ ∀ b ∈ l, m ≤ b := by
  cases l with
  | nil => simp [List.min?] at h
  | cons a as =>
    simp only [List.min?] at h
    rcases foldl_min_spec as a with ⟨hmem, hle, hall⟩
    injection h with h
    subst h
    refine ⟨?_, ?_⟩
    · rcases hmem with h | h
      · rw [← h]; exact List.mem_cons_self a as
      · exact List.mem_cons_of_mem a h
    · intro b hb
      rw [List.mem_cons] at hb
      rcases hb with rfl | hb
      · exact hle
      · exact hall b hb

theorem max?_isSome_of_ne_nil {l : List ℚ} (h : l ≠ []) : ∃ m, l.max? = some m := by
  cases l with
  | nil => exact absurd rfl h
  | cons a as => exact ⟨as.foldl max a, rfl⟩

theorem min?_isSome_of_ne_nil {l : List ℚ} (h : l ≠ []) : ∃ m, l.min? = some m := by
  cases l with
  | nil => exact absurd rfl h
  | cons a as => exact ⟨as.foldl min a, rfl⟩

/-! ### Postcondition, monotonicity, totality and divergence of the
pending-kick loop -/

/-- Partial correctness of the `while` loop: when it exits normally the
current output time lies strictly before the next scheduled kick, the
last kick is not after the output time, and the kick clock still spans
exactly one `kicktimestep`. -/
theorem kickLoop_post {O : Oracles} {g : Nat → ℚ} {e step ka t : ℚ}
    {fuel : Nat} {st : ModeState} {cnt : Nat} {st' : ModeState} {cnt' : Nat}
    (hgap : st.nextKick = st.lastKick + step) (hlast : st.lastKick ≤ t)
    (h : kickLoop O g e step ka t fuel (st, cnt) = some (st', cnt')) :
    st'.lastKick ≤ t ∧ t < st'.nextKick ∧ st'.nextKick = st'.lastKick + step := by
  induction fuel generalizing st cnt with
  | zero =>
    simp only [kickLoop] at h
    by_cases hc : st.nextKick ≤ t
    · simp [hc] at h
    · simp [hc] at h
      obtain ⟨h1, h2⟩ := h
      subst h1
      exact ⟨hlast, lt_of_not_le hc, hgap⟩
  | succ n ih =>
    simp only [kickLoop] at h
    by_cases hc : st.nextKick ≤ t
    · rw [if_pos hc] at h
      exact ih (by simp) hc h
    · rw [if_neg hc] at h
      injection h with h
      injection h with h1 h2
      subst h1
      exact ⟨hlast, lt_of_not_le hc, hgap⟩

/-- Running the loop with more fuel cannot change a normally returned
result. -/
theorem kickLoop_mono {O : Oracles} {g : Nat → ℚ} {e step ka t : ℚ}
    {n m : Nat} {x : ModeState × Nat} {r : ModeState × Nat}
    (hnm : n ≤ m) (h : kickLoop O g e step ka t n x = some r) :
    kickLoop O g e step ka t m x = some r := by
  induction n generalizing m x with
  | zero =>
    obtain ⟨st, cnt⟩ := x
    simp only [kickLoop] at h
    by_cases hc : st.nextKick ≤ t
    · simp [hc] at h
    · simp [hc] at h
      cases m with
      | zero => simp [kickLoop, hc, h]
      | succ m => simp [kickLoop, hc, h]
  | succ n ih =>
    obtain ⟨st, cnt⟩ := x
    cases m with
    | zero => exact absurd hnm (by simp)
    | succ m =>
      simp only [kickLoop] at h ⊢
      by_cases hc : st.nextKick ≤ t
      · rw [if_pos hc] at h ⊢
        exact ih (Nat.le_of_succ_le_succ hnm) h
      · rw [if_neg hc] at h ⊢
        exact h

/-- The number of loop iterations still needed according to the kick
clock: zero once `t < nextKick`. -/
def kicksNeeded (step t : ℚ) (st : ModeState) : Nat :=
  if st.nextKick ≤ t then (⌊(t - st.nextKick) / step⌋ + 1).toNat else 0

/-- Total correctness of the `while` loop for a positive kick timestep:
`kicksNeeded` is a sufficient fuel bound. -/
theorem kickLoop_total {O : Oracles} {g : Nat → ℚ} {e step ka t : ℚ}
    (hstep : 0 < step) :
    ∀ (fuel : Nat) (st : ModeState) (cnt : Nat),
      kicksNeeded step t st ≤ fuel →
      ∃ r, kickLoop O g e step ka t fuel (st, cnt) = some r := by
  intro fuel
  induction fuel with
  | zero =>
    intro st cnt hneed
    by_cases hc : st.nextKick ≤ t
    · exfalso
      have h0 : (0:ℚ) ≤ (t - st.nextKick) / step :=
        div_nonneg (by linarith) (le_of_lt hstep)
      have h1 : (0:ℤ) ≤ ⌊(t - st.nextKick) / step⌋ := Int.le_floor.mpr (by simpa)
      have : kicksNeeded step t st = (⌊(t - st.nextKick) / step⌋ + 1).toNat := by
        simp [kicksNeeded, hc]
      omega
    · exact ⟨(st, cnt), by simp [kickLoop, hc]⟩
  | succ n ih =>
    intro st cnt hneed
    by_cases hc : st.nextKick ≤ t
    · have h0 : (0:ℚ) ≤ (t - st.nextKick) / step :=
        div_nonneg (by linarith) (le_of_lt hstep)
      have h1 : (0:ℤ) ≤ ⌊(t - st.nextKick) / step⌋ := Int.le_floor.mpr (by simpa)
      set st2 : ModeState :=
        { amplsin := O.exp (-(e * (st.nextKick - st.lastKick))) * st.amplsin + ka * g cnt,
          amplcos := O.exp (-(e * (st.nextKick - st.lastKick))) * st.amplcos + ka * g (cnt + 1),
          lastKick := st.nextKick,
          nextKick := st.nextKick + step } with hst2
      have hneed2 : kicksNeeded step t st2 ≤ n := by
        by_cases hc2 : st2.nextKick ≤ t
        · have hfl : ⌊(t - st2.nextKick) / step⌋ = ⌊(t - st.nextKick) / step⌋ - 1 := by
            have : (t - st2.nextKick) / step = (t - st.nextKick) / step - 1 := by
              rw [hst2]
              field_simp
              ring
            rw [this, Int.floor_sub_one]
          have hk : kicksNeeded step t st = (⌊(t - st.nextKick) / step⌋ + 1).toNat := by
            simp [kicksNeeded, hc]
          have hk2 : kicksNeeded step t st2 = (⌊(t - st.nextKick) / step⌋ - 1 + 1).toNat := by
            simp [kicksNeeded, hc2, hfl]
          omega
        · simp [kicksNeeded, hc2]
      obtain ⟨r, hr⟩ := ih st2 (cnt + 2) hneed2
      exact ⟨r, by simp only [kickLoop, if_pos hc]; exact hr⟩
    · exact ⟨(st, cnt), by simp [kickLoop, hc]⟩

/-- With a non-positive kick timestep, a pending-kick loop that is entered
never exits: the kick clock cannot advance past the output time, so no
amount of fuel produces a result.  This is the non-termination the source
exhibits on a negative damping rate. -/
theorem kickLoop_diverges {O : Oracles} {g : Nat → ℚ} {e step ka t : ℚ}
    (hstep : step ≤ 0) :
    ∀ (fuel : Nat) (st : ModeState) (cnt : Nat), st.nextKick ≤ t →
      kickLoop O g e step ka t fuel (st, cnt) = none := by
  intro fuel
  induction fuel with
  | zero => intro st cnt hc; simp [kickLoop, hc]
  | succ n ih =>
    intro st cnt hc
    simp only [kickLoop, if_pos hc]
    exact ih _ _ (by simp; linarith)

/-! ### The per-output-time mode sweep: frame property, accumulated
value, monotonicity and totality -/

/-- The sampling step is a pure read: the states and the draw counter
produced by the full per-output-time sweep are exactly those of the
kicks-only evolution. -/
theorem timeStep_states {O : Oracles} {g : Nat → ℚ} {step t : ℚ} {fuel : Nat} :
    ∀ {l : List (ModeParam × ModeState)} {cnt : Nat} {acc : ℚ}
      {sts : List ModeState} {cnt' : Nat} {v : ℚ},
      timeStep O g step t fuel l cnt acc = some (sts, cnt', v) →
      kicksOnly O g step t fuel l cnt = some (sts, cnt') := by
  intro l
  induction l with
  | nil =>
    intro cnt acc sts cnt' v h
    simp only [timeStep, Option.some.injEq, Prod.mk.injEq] at h
    obtain ⟨h1, h2, h3⟩ := h
    simp [kicksOnly, ← h1, ← h2]
  | cons hd tl ih =>
    intro cnt acc sts cnt' v h
    obtain ⟨p, st⟩ := hd
    simp only [timeStep] at h
    cases hk : kickLoop O g p.eta step p.ka t fuel (st, cnt) with
    | none => rw [hk] at h; exact absurd h (by simp)
    | some r =>
      obtain ⟨st2, cnt2⟩ := r
      rw [hk] at h
      simp only at h
      cases ht : timeStep O g step t fuel tl cnt2
          (acc + modeContrib O p st2 t) with
      | none => rw [ht] at h; exact absurd h (by simp)
      | some r2 =>
        obtain ⟨sts3, cnt3, v3⟩ := r2
        rw [ht] at h
        simp only [Option.some.injEq, Prod.mk.injEq] at h
        obtain ⟨h1, h2, h3⟩ := h
        simp only [kicksOnly, hk]
        rw [ih ht]
        simp [← h1, ← h2]

/-- Conversely, whenever the kicks-only evolution succeeds, the full sweep
succeeds with the same states and counter, for any starting accumulator. -/
theorem kicksOnly_timeStep {O : Oracles} {g : Nat → ℚ} {step t : ℚ} {fuel : Nat} :
    ∀ {l : List (ModeParam × ModeState)} {cnt : Nat}
      {sts : List ModeState} {cnt' : Nat} (acc : ℚ),
      kicksOnly O g step t fuel l cnt = some (sts, cnt') →
      ∃ v, timeStep O g step t fuel l cnt acc = some (sts, cnt', v) := by
  intro l
  induction l with
  | nil =>
    intro cnt sts cnt' acc h
    simp only [kicksOnly, Option.some.injEq, Prod.mk.injEq] at h
    obtain ⟨h1, h2⟩ := h
    exact ⟨acc, by simp [timeStep, ← h1, ← h2]⟩
  | cons hd tl ih =>
    intro cnt sts cnt' acc h
    obtain ⟨p, st⟩ := hd
    simp only [kicksOnly] at h
    cases hk : kickLoop O g p.eta step p.ka t fuel (st, cnt) with
    | none => rw [hk] at h; exact absurd h (by simp)
    | some r =>
      obtain ⟨st2, cnt2⟩ := r
      rw [hk] at h
      simp only at h
      cases ht : kicksOnly O g step t fuel tl cnt2 with
      | none => rw [ht] at h; exact absurd h (by simp)
      | some r2 =>
        obtain ⟨sts3, cnt3⟩ := r2
        rw [ht] at h
        simp only [Option.some.injEq, Prod.mk.injEq] at h
        obtain ⟨h1, h2⟩ := h
        obtain ⟨v, hv⟩ := ih (acc + modeContrib O p st2 t) ht
        refine ⟨v, ?_⟩
        simp only [timeStep, hk, hv]
        simp [← h1, ← h2]

/-- The accumulated signal value of one output-time sweep: the starting
accumulator plus the superposition of all modes' sampled contributions,
each evaluated at that mode's post-kick state. -/
theorem timeStep_value {O : Oracles} {g : Nat → ℚ} {step t : ℚ} {fuel : Nat} :
    ∀ {l : List (ModeParam × ModeState)} {cnt : Nat} {acc : ℚ}
      {sts : List ModeState} {cnt' : Nat} {v : ℚ},
      timeStep O g step t fuel l cnt acc = some (sts, cnt', v) →
      sts.length = l.length ∧
        v = acc + sigSum O t (l.map Prod.fst) sts := by
  intro l
  induction l with
  | nil =>
    intro cnt acc sts cnt' v h
    simp only [timeStep, Option.some.injEq, Prod.mk.injEq] at h
    obtain ⟨h1, h2, h3⟩ := h
    simp [← h1, ← h3, sigSum]
  | cons hd tl ih =>
    intro cnt acc sts cnt' v h
    obtain ⟨p, st⟩ := hd
    simp only [timeStep] at h
    cases hk : kickLoop O g p.eta step p.ka t fuel (st, cnt) with
    | none => rw [hk] at h; exact absurd h (by simp)
    | some r =>
      obtain ⟨st2, cnt2⟩ := r
      rw [hk] at h
      simp only at h
      cases ht : timeStep O g step t fuel tl cnt2
          (acc + modeContrib O p st2 t) with
      | none => rw [ht] at h; exact absurd h (by simp)
      | some r2 =>
        obtain ⟨sts3, cnt3, v3⟩ := r2
        rw [ht] at h
        simp only [Option.some.injEq, Prod.mk.injEq] at h
        obtain ⟨h1, h2, h3⟩ := h
        obtain ⟨hlen, hval⟩ := ih ht
        subst h3
        constructor
        · simp [← h1, hlen]
        · rw [hval, ← h1]
          simp [sigSum, List.zip_cons_cons]
          ring

/-- Fuel monotonicity of the kicks-only sweep. -/
theorem kicksOnly_mono {O : Oracles} {g : Nat → ℚ} {step t : ℚ}
    {n m : Nat} (hnm : n ≤ m) :
    ∀ {l : List (ModeParam × ModeState)} {cnt : Nat} {r},
      kicksOnly O g step t n l cnt = some r →
      kicksOnly O g step t m l cnt = some r := by
  intro l
  induction l with
  | nil => intro cnt r h; simpa [kicksOnly] using h
  | cons hd tl ih =>
    intro cnt r h
    obtain ⟨p, st⟩ := hd
    simp only [kicksOnly] at h ⊢
    cases hk : kickLoop O g p.eta step p.ka t n (st, cnt) with
    | none => rw [hk] at h; exact absurd h (by simp)
    | some r2 =>
      rw [hk] at h
      obtain ⟨st2, cnt2⟩ := r2
      rw [kickLoop_mono hnm hk]
      simp only at h ⊢
      cases ht : kicksOnly O g step t n tl cnt2 with
      | none => rw [ht] at h; exact absurd h (by simp)
      | some r3 =>
        rw [ht] at h
        rw [ih ht]
        exact h

/-- Totality of the kicks-only sweep for a positive kick timestep. -/
theorem kicksOnly_total {O : Oracles} {g : Nat → ℚ} {step t : ℚ}
    (hstep : 0 < step) :
    ∀ (l : List (ModeParam × ModeState)) (cnt : Nat),
      ∃ fuel r, kicksOnly O g step t fuel l cnt = some r := by
  intro l
  induction l with
  | nil => exact fun cnt => ⟨0, ([], cnt), by simp [kicksOnly]⟩
  | cons hd tl ih =>
    intro cnt
    obtain ⟨p, st⟩ := hd
    obtain ⟨r1, hr1⟩ :=
      @kickLoop_total O g p.eta step p.ka t hstep (kicksNeeded step t st) st cnt
        (le_refl _)
    obtain ⟨st2, cnt2⟩ := r1
    obtain ⟨fuel2, r2, hr2⟩ := ih cnt2
    obtain ⟨sts3, cnt3⟩ := r2
    refine ⟨max (kicksNeeded step t st) fuel2, (st2 :: sts3, cnt3), ?_⟩
    have hk := kickLoop_mono (le_max_left (kicksNeeded step t st) fuel2) hr1
    have ht := kicksOnly_mono (le_max_right (kicksNeeded step t st) fuel2) hr2
    simp only [kicksOnly, hk, ht]

/-- Fuel monotonicity of the full per-output-time sweep. -/
theorem timeStep_mono {O : Oracles} {g : Nat → ℚ} {step t : ℚ}
    {n m : Nat} (hnm : n ≤ m) {l : List (ModeParam × ModeState)} {cnt : Nat}
    {acc : ℚ} {r} (h : timeStep O g step t n l cnt acc = some r) :
    timeStep O g step t m l cnt acc = some r := by
  obtain ⟨sts, cnt', v⟩ := r
  have hk := timeStep_states h
  have hk2 := kicksOnly_mono hnm hk
  obtain ⟨v2, hv2⟩ := kicksOnly_timeStep acc hk2
  obtain ⟨-, hval⟩ := timeStep_value h
  obtain ⟨-, hval2⟩ := timeStep_value hv2
  rw [hv2, hval2, ← hval]

/-- Fuel monotonicity of the main pass. -/
theorem mainPass_mono {O : Oracles} {g : Nat → ℚ} {step : ℚ}
    {n m : Nat} (hnm : n ≤ m) {params : List ModeParam} :
    ∀ {times : List ℚ} {sts : List ModeState} {cnt : Nat} {r},
      mainPass O g step n params times sts cnt = some r →
      mainPass O g step m params times sts cnt = some r := by
  intro times
  induction times with
  | nil => intro sts cnt r h; simpa [mainPass] using h
  | cons t ts ih =>
    intro sts cnt r h
    simp only [mainPass] at h ⊢
    cases hts : timeStep O g step t n (params.zip sts) cnt 0 with
    | none => rw [hts] at h; exact absurd h (by simp)
    | some r2 =>
      rw [hts] at h
      obtain ⟨sts2, cnt2, v⟩ := r2
      rw [timeStep_mono hnm hts]
      simp only at h ⊢
      cases hmp : mainPass O g step n params ts sts2 cnt2 with
      | none => rw [hmp] at h; exact absurd h (by simp)
      | some r3 =>
        rw [hmp] at h
        rw [ih hmp]
        exact h

/-- Totality of the main pass for a positive kick timestep: some fuel
bound suffices for the whole run. -/
theorem mainPass_total {O : Oracles} {g : Nat → ℚ} {step : ℚ}
    (hstep : 0 < step) {params : List ModeParam} :
    ∀ (times : List ℚ) (sts : List ModeState) (cnt : Nat),
      ∃ fuel r, mainPass O g step fuel params times sts cnt = some r := by
  intro times
  induction times with
  | nil => exact fun sts cnt => ⟨0, ([], sts, cnt), by simp [mainPass]⟩
  | cons t ts ih =>
    intro sts cnt
    obtain ⟨fuel1, ⟨sts2, cnt2⟩, h1⟩ :=
      @kicksOnly_total O g step t hstep (params.zip sts) cnt
    obtain ⟨v, hv⟩ := kicksOnly_timeStep 0 h1
    obtain ⟨fuel2, ⟨sig, stsF, cntF⟩, h2⟩ := ih sts2 cnt2
    refine ⟨max fuel1 fuel2, (v :: sig, stsF, cntF), ?_⟩
    have ht := timeStep_mono (le_max_left fuel1 fuel2) hv
    have hm := mainPass_mono (le_max_right fuel1 fuel2) h2
    simp only [mainPass, ht, hm]

/-- The main pass refines the kicks-only state trace: whenever the main
pass returns a signal, the trace exists, the signal has one value per
output time, and each signal value is the mode superposition `sigSum`
evaluated at that time on the traced post-kick states. -/
theorem mainPass_stateTrace {O : Oracles} {g : Nat → ℚ} {step : ℚ}
    {fuel : Nat} {params : List ModeParam} :
    ∀ {times : List ℚ} {sts : List ModeState} {cnt : Nat}
      {sig : List ℚ} {stsF : List ModeState} {cntF : Nat},
      params.length = sts.length →
      mainPass O g step fuel params times sts cnt = some (sig, stsF, cntF) →
      ∃ tr, stateTrace O g step fuel params times sts cnt = some tr ∧
        sig.length = times.length ∧ tr.length = times.length ∧
        ∀ j t, times.get? j = some t →
          ∃ trj, tr.get? j = some trj ∧ trj.length = params.length ∧
            sig.get? j = some (sigSum O t params trj) := by
  intro times
  induction times with
  | nil =>
    intro sts cnt sig stsF cntF hlen h
    simp only [mainPass, Option.some.injEq, Prod.mk.injEq] at h
    obtain ⟨h1, h2, h3⟩ := h
    exact ⟨[], by simp [stateTrace, ← h1]⟩
  | cons t ts ih =>
    intro sts cnt sig stsF cntF hlen h
    simp only [mainPass] at h
    cases hts : timeStep O g step t fuel (params.zip sts) cnt 0 with
    | none => rw [hts] at h; exact absurd h (by simp)
    | some r2 =>
      rw [hts] at h
      obtain ⟨sts2, cnt2, v⟩ := r2
      simp only at h
      cases hmp : mainPass O g step fuel params ts sts2 cnt2 with
      | none => rw [hmp] at h; exact absurd h (by simp)
      | some r3 =>
        rw [hmp] at h
        obtain ⟨sig', stsF', cntF'⟩ := r3
        simp only [Option.some.injEq, Prod.mk.injEq] at h
        obtain ⟨h1, h2, h3⟩ := h
        have hfst : (params.zip sts).map Prod.fst = params :=
          List.map_fst_zip params sts (le_of_eq hlen)
        obtain ⟨hlen2, hval⟩ := timeStep_value hts
        have hlen2' : params.length = sts2.length := by
          rw [hlen2, List.length_zip, hlen, min_self]
        obtain ⟨tr', htr', hsl, htl, hidx⟩ := ih hlen2' hmp
        refine ⟨sts2 :: tr', ?_, ?_, ?_, ?_⟩
        · simp only [stateTrace, timeStep_states hts, htr']
        · simp [← h1, hsl]
        · simp [htl]
        · intro j tj hj
          cases j with
          | zero =>
            simp only [List.get?] at hj
            injection hj with hj
            subst hj
            refine ⟨sts2, by simp, hlen2'.symm, ?_⟩
            rw [← h1]
            simp only [List.get?]
            rw [hval, hfst, zero_add]
          | succ j =>
            simp only [List.get?] at hj
            obtain ⟨trj, htrj, htrjlen, hsig⟩ := hidx j tj hj
            exact ⟨trj, by simpa using htrj, htrjlen, by rw [← h1]; simpa using hsig⟩

/-- Postcondition of the kicks-only sweep: if every mode enters with its
clock spanning one `kicktimestep` and its last kick not after `t`, then
every mode leaves with `lastKick ≤ t < nextKick` and the same clock span. -/
theorem kicksOnly_post {O : Oracles} {g : Nat → ℚ} {step t : ℚ} {fuel : Nat} :
    ∀ {l : List (ModeParam × ModeState)} {cnt : Nat}
      {sts : List ModeState} {cnt' : Nat},
      kicksOnly O g step t fuel l cnt = some (sts, cnt') →
      (∀ pc ∈ l, pc.2.nextKick = pc.2.lastKick + step ∧ pc.2.lastKick ≤ t) →
      ∀ st ∈ sts,
        st.lastKick ≤ t ∧ t < st.nextKick ∧ st.nextKick = st.lastKick + step := by
  intro l
  induction l with
  | nil =>
    intro cnt sts cnt' h hpre
    simp only [kicksOnly, Option.some.injEq, Prod.mk.injEq] at h
    obtain ⟨h1, -⟩ := h
    intro st hst
    rw [← h1] at hst
    exact absurd hst (List.not_mem_nil st)
  | cons hd tl ih =>
    intro cnt sts cnt' h hpre
    obtain ⟨p, st0⟩ := hd
    simp only [kicksOnly] at h
    cases hk : kickLoop O g p.eta step p.ka t fuel (st0, cnt) with
    | none => rw [hk] at h; exact absurd h (by simp)
    | some r =>
      obtain ⟨st2, cnt2⟩ := r
      rw [hk] at h
      simp only at h
      cases ht : kicksOnly O g step t fuel tl cnt2 with
      | none => rw [ht] at h; exact absurd h (by simp)
      | some r2 =>
        obtain ⟨sts3, cnt3⟩ := r2
        rw [ht] at h
        simp only [Option.some.injEq, Prod.mk.injEq] at h
        obtain ⟨h1, -⟩ := h
        obtain ⟨hgap0, hlast0⟩ := hpre (p, st0) (List.mem_cons_self _ _)
        intro st hst
        rw [← h1] at hst
        rw [List.mem_cons] at hst
        rcases hst with rfl | hst
        · exact kickLoop_post hgap0 hlast0 hk
        · exact ih ht (fun pc hpc => hpre pc (List.mem_cons_of_mem _ hpc)) st hst

/-- The clock invariant propagates along a non-decreasing output-time
grid: every traced post-kick state at output index `j` satisfies
`lastKick ≤ time[j] < nextKick` with the clock spanning one
`kicktimestep`. -/
theorem stateTrace_invariant {O : Oracles} {g : Nat → ℚ} {step : ℚ}
    {fuel : Nat} {params : List ModeParam} :
    ∀ {times : List ℚ} {sts : List ModeState} {cnt : Nat}
      {tr : List (List ModeState)},
      stateTrace O g step fuel params times sts cnt = some tr →
      times.Chain' (fun a b => a ≤ b) →
      (∀ t0, times.head? = some t0 →
        ∀ st ∈ sts, st.nextKick = st.lastKick + step ∧ st.lastKick ≤ t0) →
      ∀ j t trj, times.get? j = some t → tr.get? j = some trj →
        ∀ st ∈ trj,
          st.lastKick ≤ t ∧ t < st.nextKick ∧ st.nextKick = st.lastKick + step := by
  intro times
  induction times with
  | nil =>
    intro sts cnt tr h hchain hpre j t trj hj
    simp at hj
  | cons t0 ts ih =>
    intro sts cnt tr h hchain hpre j t trj hj htrj
    simp only [stateTrace] at h
    cases hk : kicksOnly O g step t0 fuel (params.zip sts) cnt with
    | none => rw [hk] at h; exact absurd h (by simp)
    | some r =>
      obtain ⟨sts2, cnt2⟩ := r
      rw [hk] at h
      simp only at h
      cases hst : stateTrace O g step fuel params ts sts2 cnt2 with
      | none => rw [hst] at h; exact absurd h (by simp)
      | some tr' =>
        rw [hst] at h
        simp only [Option.some.injEq] at h
        subst h
        have hpost : ∀ st ∈ sts2,
            st.lastKick ≤ t0 ∧ t0 < st.nextKick ∧ st.nextKick = st.lastKick + step := by
          refine kicksOnly_post hk ?_
          intro pc hpc
          exact hpre t0 rfl pc.2 (List.of_mem_zip hpc).2
        rw [List.chain'_cons'] at hchain
        obtain ⟨hhead, hchain'⟩ := hchain
        cases j with
        | zero =>
          simp only [List.get?] at hj htrj
          injection hj with hj
          injection htrj with htrj
          subst hj
          subst htrj
          intro st hst
          obtain ⟨ha, hb, hc⟩ := hpost st hst
          exact ⟨ha, hb, hc⟩
        | succ j =>
          simp only [List.get?] at hj htrj
          refine ih hst hchain' ?_ j t trj hj htrj
          intro t1 ht1 st hst
          obtain ⟨ha, hb, hc⟩ := hpost st hst
          exact ⟨hc, le_trans ha (hhead t1 ht1)⟩

/-! ### Characterisation of the warm-up loop -/

/-- The specification's per-mode warm-up recurrence: starting from zero,
`a := d * a + k * z` with one fresh standard draw per iteration. -/
def warmupScalar (d k : ℚ) (z : Nat → ℚ) : Nat → ℚ
  | 0 => 0
  | n + 1 => d * warmupScalar d k z n + k * z n

/-- One warm-up iteration as a self-map of the warm-up state. -/
def warmupIter (damp ka : List ℚ) (g : Nat → ℚ) :
    Quad × Quad × Nat → Quad × Quad × Nat :=
  fun st =>
    let M := damp.length
    let zs := (List.range M).map (fun i => g (st.2.2 + i))
    let zc := (List.range M).map (fun i => g (st.2.2 + M + i))
    (quadStep damp ka st.1 zs, quadStep damp ka st.2.1 zc, st.2.2 + 2 * M)

theorem warmup_zero (damp ka : List ℚ) (g : Nat → ℚ) (st : Quad × Quad × Nat) :
    warmup damp ka g 0 st = st := rfl

theorem warmup_succ_front (damp ka : List ℚ) (g : Nat → ℚ) (n : Nat)
    (st : Quad × Quad × Nat) :
    warmup damp ka g (n + 1) st = warmup damp ka g n (warmupIter damp ka g st) := by
  obtain ⟨qs, qc, cnt⟩ := st
  rfl

/-- The warm-up loop peels one iteration at the back. -/
theorem warmup_succ_back (damp ka : List ℚ) (g : Nat → ℚ) :
    ∀ (n : Nat) (st : Quad × Quad × Nat),
      warmup damp ka g (n + 1) st = warmupIter damp ka g (warmup damp ka g n st) := by
  intro n
  induction n with
  | zero => intro st; rw [warmup_succ_front, warmup_zero, warmup_zero]
  | succ n ih =>
    intro st
    rw [warmup_succ_front, ih, warmup_succ_front]

/-- The virtual `i`-th component of a quadrature variable: a numpy scalar
broadcasts to every index. -/
def Quad.at (q : Quad) (i : Nat) : ℚ :=
  match q with
  | .scalar x => x
  | .vec xs => xs.getD i 0

/-- Shape invariant for the warm-up state: a scalar, or a vector of one
entry per mode. -/
def Quad.Shaped (M : Nat) (q : Quad) : Prop :=
  (∃ x, q = .scalar x) ∨ (∃ xs, q = .vec xs ∧ xs.length = M)

theorem get?_of_lt {xs : List ℚ} {i : Nat} (h : i < xs.length) :
    xs.get? i = some (xs.getD i 0) := by
  rw [List.getD_eq_getElem?_getD, List.get?_eq_getElem?, List.getElem?_eq_getElem h]
  simp

theorem quadStepVec_length {damp ka xs z : List ℚ} {M : Nat}
    (hd : damp.length = M) (hk : ka.length = M) (hx : xs.length = M)
    (hz : z.length = M) : (quadStepVec damp ka xs z).length = M := by
  simp [quadStepVec, List.length_zipWith, List.length_zip, hd, hk, hx, hz]

theorem quadStepVec_get? {damp ka xs z : List ℚ} {M i : Nat}
    (hd : damp.length = M) (hk : ka.length = M) (hx : xs.length = M)
    (hz : z.length = M) (hi : i < M) :
    (quadStepVec damp ka xs z).get? i =
      some (damp.getD i 0 * xs.getD i 0 + ka.getD i 0 * z.getD i 0) := by
  have h1 : damp.get? i = some (damp.getD i 0) := get?_of_lt (by rw [hd]; exact hi)
  have h2 : ka.get? i = some (ka.getD i 0) := get?_of_lt (by rw [hk]; exact hi)
  have h3 : xs.get? i = some (xs.getD i 0) := get?_of_lt (by rw [hx]; exact hi)
  have h4 : z.get? i = some (z.getD i 0) := get?_of_lt (by rw [hz]; exact hi)
  simp only [quadStepVec, List.zip_eq_zipWith, List.get?_zipWith, h1, h2, h3, h4]

theorem quadStep_shape {damp ka : List ℚ} {M : Nat} {q : Quad} {z : List ℚ}
    (hd : damp.length = M) (hk : ka.length = M) (hz : z.length = M)
    (hq : Quad.Shaped M q) :
    ∃ xs, quadStep damp ka q z = .vec xs ∧ xs.length = M := by
  rcases hq with ⟨x, rfl⟩ | ⟨xs, rfl, hxs⟩
  · exact ⟨_, rfl, quadStepVec_length hd hk (by simp [hd]) hz⟩
  · exact ⟨_, rfl, quadStepVec_length hd hk hxs hz⟩

theorem getD_of_get? {xs : List ℚ} {i : Nat} {v : ℚ} (h : xs.get? i = some v) :
    xs.getD i 0 = v := by
  rw [List.getD_eq_getElem?_getD, ← List.get?_eq_getElem?, h]
  rfl

theorem quadStep_at {damp ka : List ℚ} {M i : Nat} {q : Quad} {z : List ℚ}
    (hd : damp.length = M) (hk : ka.length = M) (hz : z.length = M)
    (hq : Quad.Shaped M q) (hi : i < M) :
    (quadStep damp ka q z).at i =
      damp.getD i 0 * q.at i + ka.getD i 0 * z.getD i 0 := by
  rcases hq with ⟨x, rfl⟩ | ⟨xs, rfl, hxs⟩
  · have hx : (List.replicate damp.length x).length = M := by simp [hd]
    have h1 := quadStepVec_get? hd hk hx hz hi
    have h2 : (List.replicate damp.length x).getD i 0 = x := by
      rw [List.getD_eq_getElem?_getD, List.getElem?_replicate]
      simp [hd ▸ hi]
    simp only [quadStep, Quad.at]
    rw [getD_of_get? h1, h2]
  · have h1 := quadStepVec_get? hd hk hxs hz hi
    simp only [quadStep, Quad.at]
    rw [getD_of_get? h1]

theorem warmup_cnt (damp ka : List ℚ) (g : Nat → ℚ) :
    ∀ (n : Nat) (st : Quad × Quad × Nat),
      (warmup damp ka g n st).2.2 = st.2.2 + 2 * damp.length * n := by
  intro n
  induction n with
  | zero => intro st; simp [warmup_zero]
  | succ n ih =>
    intro st
    rw [warmup_succ_back]
    simp only [warmupIter]
    rw [ih]
    ring

theorem warmup_shape (damp ka : List ℚ) (g : Nat → ℚ) {M : Nat}
    (hd : damp.length = M) (hk : ka.length = M) :
    ∀ (n : Nat) (st : Quad × Quad × Nat),
      Quad.Shaped M st.1 → Quad.Shaped M st.2.1 →
      Quad.Shaped M (warmup damp ka g n st).1 ∧
        Quad.Shaped M (warmup damp ka g n st).2.1 ∧
        (1 ≤ n →
          (∃ xs, (warmup damp ka g n st).1 = .vec xs ∧ xs.length = M) ∧
          (∃ xs, (warmup damp ka g n st).2.1 = .vec xs ∧ xs.length = M)) := by
  intro n
  induction n with
  | zero =>
    intro st h1 h2
    exact ⟨h1, h2, by omega⟩
  | succ n ih =>
    intro st h1 h2
    rw [warmup_succ_back]
    have hzs : ((List.range damp.length).map
        (fun i => g ((warmup damp ka g n st).2.2 + i))).length = M := by simp [hd]
    have hzc : ((List.range damp.length).map
        (fun i => g ((warmup damp ka g n st).2.2 + damp.length + i))).length = M := by
      simp [hd]
    obtain ⟨hs1, hs2, -⟩ := ih st h1 h2
    obtain ⟨vs, hvs, hvsl⟩ := quadStep_shape hd hk hzs hs1
    obtain ⟨vc, hvc, hvcl⟩ := quadStep_shape hd hk hzc hs2
    refine ⟨?_, ?_, ?_⟩
    · right; exact ⟨vs, hvs, hvsl⟩
    · right; exact ⟨vc, hvc, hvcl⟩
    · intro h
      exact ⟨⟨vs, hvs, hvsl⟩, ⟨vc, hvc, hvcl⟩⟩

/-- Elementwise characterisation of the warm-up loop from the
zero-initialised start: after `n` iterations the `i`-th quadrature
components equal the specification's scalar recurrence driven by that
mode's own interleaved standard draws. -/
theorem warmup_at (damp ka : List ℚ) (g : Nat → ℚ) {M i : Nat}
    (hd : damp.length = M) (hk : ka.length = M) (hi : i < M) :
    ∀ n : Nat,
      (warmup damp ka g n (.scalar 0, .scalar 0, 0)).1.at i =
        warmupScalar (damp.getD i 0) (ka.getD i 0)
          (fun m => g (2 * M * m + i)) n ∧
      (warmup damp ka g n (.scalar 0, .scalar 0, 0)).2.1.at i =
        warmupScalar (damp.getD i 0) (ka.getD i 0)
          (fun m => g (2 * M * m + M + i)) n := by
  intro n
  induction n with
  | zero => simp [warmup_zero, Quad.at, warmupScalar]
  | succ n ih =>
    rw [warmup_succ_back]
    obtain ⟨ihs, ihc⟩ := ih
    obtain ⟨hs1, hs2, -⟩ :=
      warmup_shape damp ka g hd hk n (.scalar 0, .scalar 0, 0)
        (Or.inl ⟨0, rfl⟩) (Or.inl ⟨0, rfl⟩)
    have hcnt := warmup_cnt damp ka g n (.scalar 0, .scalar 0, 0)
    simp only at hcnt
    have hzs : ((List.range damp.length).map
        (fun j => g ((warmup damp ka g n (.scalar 0, .scalar 0, 0)).2.2 + j))).length
        = M := by simp [hd]
    have hzc : ((List.range damp.length).map
        (fun j => g ((warmup damp ka g n (.scalar 0, .scalar 0, 0)).2.2
          + damp.length + j))).length = M := by simp [hd]
    constructor
    · simp only [warmupIter]
      rw [quadStep_at hd hk hzs hs1 hi, ihs]
      have hzval : ((List.range damp.length).map
          (fun j => g ((warmup damp ka g n (.scalar 0, .scalar 0, 0)).2.2 + j))).getD i 0
          = g (2 * M * n + i) := by
        rw [List.getD_eq_getElem?_getD, List.getElem?_map, List.getElem?_range (hd ▸ hi)]
        simp only [Option.map_some', Option.getD_some]
        rw [hcnt, hd]
        congr 1
        omega
      rw [hzval]
      simp [warmupScalar]
    · simp only [warmupIter]
      rw [quadStep_at hd hk hzc hs2 hi, ihc]
      have hzval : ((List.range damp.length).map
          (fun j => g ((warmup damp ka g n (.scalar 0, .scalar 0, 0)).2.2
            + damp.length + j))).getD i 0 = g (2 * M * n + M + i) := by
        rw [List.getD_eq_getElem?_getD, List.getElem?_map, List.getElem?_range (hd ▸ hi)]
        simp only [Option.map_some', Option.getD_some]
        rw [hcnt, hd]
        congr 1
        omega
      rw [hzval]
      simp [warmupScalar]

/-! ### Characterisation of the preparation stage -/

theorem kicktimestep_eq {eta : List ℚ} {mx : ℚ} (hmx : eta.max? = some mx) :
    kicktimestepOf eta = some (1 / mx / 100) := by
  simp [kicktimestepOf, hmx]

theorem div_div_collapse (mx : ℚ) : 1 / mx / 100 = 1 / (100 * mx) := by
  rw [div_div, mul_comm]

theorem kicktimestep_pos {eta : List ℚ} {mx : ℚ} (hmx : eta.max? = some mx)
    (hpos : ∀ e ∈ eta, 0 < e) : 0 < 1 / mx / 100 := by
  have hmx0 : 0 < mx := hpos mx (max?_spec hmx).1
  exact div_pos (div_pos one_pos hmx0) (by norm_num)

/-- The warm-up kick count is at least `100`: the floor argument is
`100 · max(eta) / min(eta) ≥ 100`, and the cap is `20000 ≥ 100`. -/
theorem NwarmupOf_ge_100 {eta : List ℚ} {mx mn : ℚ}
    (hmx : eta.max? = some mx) (hmn : eta.min? = some mn)
    (hpos : ∀ e ∈ eta, 0 < e) :
    NwarmupOf eta (1 / mx / 100) = some (min 20000 ⌊1 / mn / (1 / mx / 100)⌋) ∧
      100 ≤ min 20000 ⌊1 / mn / (1 / mx / 100)⌋ := by
  have hmn0 : 0 < mn := hpos mn (min?_spec hmn).1
  have hmx0 : 0 < mx := hpos mx (max?_spec hmx).1
  have hmnmx : mn ≤ mx := (min?_spec hmn).2 mx (max?_spec hmx).1
  constructor
  · simp [NwarmupOf, hmn]
  · have heq : 1 / mn / (1 / mx / 100) = 100 * mx / mn := by
      field_simp
      ring
    have hge : (100:ℚ) ≤ 1 / mn / (1 / mx / 100) := by
      rw [heq, le_div_iff hmn0]
      nlinarith
    have hfl : (100:ℤ) ≤ ⌊1 / mn / (1 / mx / 100)⌋ := by
      rw [Int.le_floor]
      exact_mod_cast hge
    exact le_min (by norm_num) hfl

theorem buildStates_spec {qs qc : Quad} {vs vc lastK : List ℚ} (step : ℚ)
    {M : Nat} (hqs : qs = .vec vs) (hqc : qc = .vec vc)
    (hvs : vs.length = M) (hvc : vc.length = M) (hL : lastK.length = M) :
    ∀ (idx : List Nat), (∀ i ∈ idx, i < M) →
      ∃ sts, buildStates qs qc lastK step idx = some sts ∧
        sts.length = idx.length ∧
        ∀ st ∈ sts, st.nextKick = st.lastKick + step ∧ st.lastKick ∈ lastK := by
  intro idx
  induction idx with
  | nil => exact fun h => ⟨[], rfl, rfl, by simp⟩
  | cons i rest ih =>
    intro h
    have hi : i < M := h i (List.mem_cons_self _ _)
    obtain ⟨sts, hsts, hlen, hprop⟩ := ih (fun j hj => h j (List.mem_cons_of_mem _ hj))
    have h1 : qs.get? i = some (vs.getD i 0) := by
      rw [hqs]; exact get?_of_lt (by rw [hvs]; exact hi)
    have h2 : qc.get? i = some (vc.getD i 0) := by
      rw [hqc]; exact get?_of_lt (by rw [hvc]; exact hi)
    have h3 : lastK.get? i = some (lastK.getD i 0) := get?_of_lt (by rw [hL]; exact hi)
    refine ⟨(⟨vs.getD i 0, vc.getD i 0, lastK.getD i 0,
      lastK.getD i 0 + step⟩ : ModeState) :: sts, ?_, ?_, ?_⟩
    · simp only [buildStates, h1, h2, h3, hsts, Option.map_some']
    · simp [hlen]
    · intro st hst
      rw [List.mem_cons] at hst
      rcases hst with rfl | hst
      · refine ⟨rfl, ?_⟩
        have : lastK.get? i = some (lastK.getD i 0) := h3
        exact List.get?_mem this
      · exact hprop st hst

/-- Full characterisation of the preparation stage on a valid input:
it succeeds, the kick timestep is `(1 / max(eta)) / 100 > 0`, there is one
parameter triple and one state per mode, every initial state's clock spans
one kick timestep, and — when the uniform draws lie in `[0, 1)` as numpy
guarantees — every initial `last_kicktime` lies in
`[time[0] - kicktimestep, time[0])`. -/
theorem prepared_ok_spec (O : Oracles) (g u : Nat → ℚ)
    {time freq ampl eta : List ℚ} {t0 : ℚ} {ts : List ℚ}
    (htime : time = t0 :: ts) (hfreq : freq ≠ [])
    (hla : ampl.length = freq.length) (hle : eta.length = freq.length)
    (hpos : ∀ e ∈ eta, 0 < e) :
    ∃ mx params sts cnt,
      eta.max? = some mx ∧ 0 < 1 / mx / 100 ∧
      prepared O g u time freq ampl eta = .ok (1 / mx / 100, params, sts, cnt) ∧
      params.length = freq.length ∧ sts.length = freq.length ∧
      (∀ st ∈ sts, st.nextKick = st.lastKick + (1 / mx / 100)) ∧
      ((∀ n, 0 ≤ u n ∧ u n < 1) →
        ∀ st ∈ sts, t0 - (1 / mx / 100) ≤ st.lastKick ∧ st.lastKick < t0) := by
  have hetane : eta ≠ [] := by
    intro hcon
    rw [hcon] at hle
    simp at hle
    exact hfreq (List.eq_nil_of_length_eq_zero hle.symm)
  obtain ⟨mx, hmx⟩ := max?_isSome_of_ne_nil hetane
  obtain ⟨mn, hmn⟩ := min?_isSome_of_ne_nil hetane
  set M := freq.length with hM
  set step : ℚ := 1 / mx / 100 with hstepdef
  have hstep : 0 < step := kicktimestep_pos hmx hpos
  obtain ⟨hnw, hnw100⟩ := NwarmupOf_ge_100 hmx hmn hpos
  set nw : ℤ := min 20000 ⌊1 / mn / (1 / mx / 100)⌋ with hnwdef
  have hnwpos : 1 ≤ nw.toNat := by omega
  set damp := dampWarm O step eta with hdampdef
  set ka := kickAmplitude O step ampl eta with hkadef
  have hdlen : damp.length = M := by simp [hdampdef, dampWarm, hle]
  have hklen : ka.length = M := by
    simp [hkadef, kickAmplitude, List.length_zipWith, hla, hle]
  obtain ⟨-, -, hvec⟩ :=
    warmup_shape damp ka g hdlen hklen nw.toNat (.scalar 0, .scalar 0, 0)
      (Or.inl ⟨0, rfl⟩) (Or.inl ⟨0, rfl⟩)
  obtain ⟨⟨vs, hvs, hvsl⟩, ⟨vc, hvc, hvcl⟩⟩ := hvec hnwpos
  set lastK := (List.range M).map (fun i => (t0 - step) + step * u i) with hlastKdef
  have hLlen : lastK.length = M := by simp [hlastKdef]
  obtain ⟨sts, hsts, hstslen, hstprop⟩ :=
    buildStates_spec step hvs hvc hvsl hvcl hLlen (List.range M)
      (fun i hi => List.mem_range.mp hi)
  refine ⟨mx,
    List.zipWith (fun f ek => { freq := f, eta := ek.1, ka := ek.2 : ModeParam })
      freq (eta.zip ka),
    sts, (warmup damp ka g nw.toNat (.scalar 0, .scalar 0, 0)).2.2,
    hmx, hstep, ?_, ?_, ?_, ?_, ?_⟩
  · simp only [prepared, htime, kicktimestep_eq hmx, hnw, List.head?]
    rw [← hstepdef, ← hM, ← hdampdef, ← hkadef, ← hlastKdef]
    simp only [hsts]
  · simp [List.length_zipWith, List.length_zip, hla, hle, hklen]
  · simp [hstslen]
  · exact fun st hst => (hstprop st hst).1
  · intro hu st hst
    obtain ⟨-, hmem⟩ := hstprop st hst
    rw [hlastKdef] at hmem
    rw [List.mem_map] at hmem
    obtain ⟨i, -, hival⟩ := hmem
    obtain ⟨hu0, hu1⟩ := hu i
    constructor
    · rw [← hival]
      nlinarith
    · rw [← hival]
      nlinarith

/-! ### Linearity of the run in the target amplitudes -/

/-- Scale the quadrature components of a main-pass state, leaving the kick
clock alone. -/
def ModeState.scaleAmpl (c : ℚ) (st : ModeState) : ModeState :=
  { st with amplsin := c * st.amplsin, amplcos := c * st.amplcos }

/-- Scale a warm-up quadrature variable. -/
def Quad.smul (c : ℚ) : Quad → Quad
  | .scalar x => .scalar (c * x)
  | .vec xs => .vec (xs.map (fun x => c * x))

/-- Scale the kick amplitude of a mode parameter, leaving frequency and
damping rate alone. -/
def ModeParam.scaleKa (c : ℚ) (p : ModeParam) : ModeParam :=
  { p with ka := c * p.ka }

theorem zipWith_ext {α β γ : Type} {f f' : α → β → γ}
    (h : ∀ a b, f a b = f' a b) :
    ∀ (l1 : List α) (l2 : List β), List.zipWith f l1 l2 = List.zipWith f' l1 l2 := by
  intro l1
  induction l1 with
  | nil => intro l2; simp
  | cons a l1 ih =>
    intro l2
    cases l2 with
    | nil => simp
    | cons b l2 => simp [h a b, ih l2]

theorem kickAmplitude_scale (O : Oracles) (step c : ℚ) (ampl eta : List ℚ) :
    kickAmplitude O step (ampl.map (fun a => c * a)) eta =
      (kickAmplitude O step ampl eta).map (fun x => c * x) := by
  simp only [kickAmplitude, List.map_zipWith]
  rw [List.zipWith_map_left]
  exact zipWith_ext (fun a b => by ring) ampl eta

theorem quadStepVec_scale (c : ℚ) (damp ka xs z : List ℚ) :
    quadStepVec damp (ka.map (fun x => c * x)) (xs.map (fun x => c * x)) z =
      (quadStepVec damp ka xs z).map (fun x => c * x) := by
  simp only [quadStepVec, List.map_zipWith]
  rw [List.zip_map_right, List.zip_map_left]
  rw [List.zipWith_map (fun (dk : ℚ × ℚ) (xz : ℚ × ℚ) => dk.1 * xz.1 + dk.2 * xz.2)
    (Prod.map id (fun x => c * x)) (Prod.map (fun x => c * x) id)
    (damp.zip ka) (xs.zip z)]
  refine zipWith_ext (fun a b => ?_) _ _
  simp [Prod.map]
  ring

theorem quadStep_scale (c : ℚ) (damp ka : List ℚ) (q : Quad) (z : List ℚ) :
    quadStep damp (ka.map (fun x => c * x)) (q.smul c) z =
      (quadStep damp ka q z).smul c := by
  cases q with
  | scalar x =>
    simp only [quadStep, Quad.smul]
    rw [← List.map_replicate, quadStepVec_scale]
  | vec xs =>
    simp only [quadStep, Quad.smul]
    rw [quadStepVec_scale]

theorem warmup_scale (c : ℚ) (damp ka : List ℚ) (g : Nat → ℚ) :
    ∀ (n : Nat) (qs qc : Quad) (cnt : Nat),
      warmup damp (ka.map (fun x => c * x)) g n (qs.smul c, qc.smul c, cnt) =
        ((warmup damp ka g n (qs, qc, cnt)).1.smul c,
          (warmup damp ka g n (qs, qc, cnt)).2.1.smul c,
          (warmup damp ka g n (qs, qc, cnt)).2.2) := by
  intro n
  induction n with
  | zero => intro qs qc cnt; simp [warmup_zero]
  | succ n ih =>
    intro qs qc cnt
    rw [warmup_succ_front, warmup_succ_front]
    simp only [warmupIter]
    rw [quadStep_scale, quadStep_scale]
    exact ih _ _ _

theorem kickLoop_scale (O : Oracles) (g : Nat → ℚ) (e step ka t c : ℚ) :
    ∀ (fuel : Nat) (st : ModeState) (cnt : Nat),
      kickLoop O g e step (c * ka) t fuel (st.scaleAmpl c, cnt) =
        (kickLoop O g e step ka t fuel (st, cnt)).map
          (fun r => (r.1.scaleAmpl c, r.2)) := by
  intro fuel
  induction fuel with
  | zero =>
    intro st cnt
    by_cases hc : st.nextKick ≤ t
    · simp [kickLoop, ModeState.scaleAmpl, hc]
    · simp [kickLoop, ModeState.scaleAmpl, hc]
  | succ n ih =>
    intro st cnt
    by_cases hc : st.nextKick ≤ t
    · simp only [kickLoop, ModeState.scaleAmpl, hc, if_true]
      have harg :
          ({ amplsin := O.exp (-(e * (st.nextKick - st.lastKick))) * (c * st.amplsin)
              + c * ka * g cnt,
             amplcos := O.exp (-(e * (st.nextKick - st.lastKick))) * (c * st.amplcos)
              + c * ka * g (cnt + 1),
             lastKick := st.nextKick, nextKick := st.nextKick + step } : ModeState) =
          ({ amplsin := O.exp (-(e * (st.nextKick - st.lastKick))) * st.amplsin
              + ka * g cnt,
             amplcos := O.exp (-(e * (st.nextKick - st.lastKick))) * st.amplcos
              + ka * g (cnt + 1),
             lastKick := st.nextKick, nextKick := st.nextKick + step }
            : ModeState).scaleAmpl c := by
        simp [ModeState.scaleAmpl]
        constructor <;> ring
      rw [harg]
      exact ih _ _
    · simp [kickLoop, ModeState.scaleAmpl, hc]

theorem modeContrib_scale (O : Oracles) (p : ModeParam) (st : ModeState)
    (t c : ℚ) :
    modeContrib O (p.scaleKa c) (st.scaleAmpl c) t = c * modeContrib O p st t := by
  simp only [modeContrib, ModeParam.scaleKa, ModeState.scaleAmpl]
  ring

theorem timeStep_scale (O : Oracles) (g : Nat → ℚ) (step t c : ℚ) (fuel : Nat) :
    ∀ (l : List (ModeParam × ModeState)) (cnt : Nat) (acc : ℚ),
      timeStep O g step t fuel
        (l.map (fun pc => (pc.1.scaleKa c, pc.2.scaleAmpl c))) cnt (c * acc) =
        (timeStep O g step t fuel l cnt acc).map
          (fun r => (r.1.map (ModeState.scaleAmpl c), r.2.1, c * r.2.2)) := by
  intro l
  induction l with
  | nil => intro cnt acc; simp [timeStep]
  | cons hd tl ih =>
    intro cnt acc
    obtain ⟨p, st⟩ := hd
    simp only [List.map_cons, timeStep]
    have hka : (p.scaleKa c).ka = c * p.ka := rfl
    have heta : (p.scaleKa c).eta = p.eta := rfl
    rw [hka, heta, kickLoop_scale]
    cases hk : kickLoop O g p.eta step p.ka t fuel (st, cnt) with
    | none => simp
    | some r =>
      obtain ⟨st2, cnt2⟩ := r
      simp only [Option.map_some']
      have hacc : c * acc + modeContrib O (p.scaleKa c) (st2.scaleAmpl c) t =
          c * (acc + modeContrib O p st2 t) := by
        rw [modeContrib_scale]
        ring
      rw [hacc, ih]
      cases ht : timeStep O g step t fuel tl cnt2 (acc + modeContrib O p st2 t) with
      | none => simp
      | some r2 => simp

theorem mainPass_scale (O : Oracles) (g : Nat → ℚ) (step c : ℚ) (fuel : Nat)
    (params : List ModeParam) :
    ∀ (times : List ℚ) (sts : List ModeState) (cnt : Nat),
      mainPass O g step fuel (params.map (ModeParam.scaleKa c)) times
        (sts.map (ModeState.scaleAmpl c)) cnt =
        (mainPass O g step fuel params times sts cnt).map
          (fun r => (r.1.map (fun x => c * x),
            r.2.1.map (ModeState.scaleAmpl c), r.2.2)) := by
  intro times
  induction times with
  | nil => intro sts cnt; simp [mainPass]
  | cons t ts ih =>
    intro sts cnt
    simp only [mainPass]
    rw [List.zip_map, show (0:ℚ) = c * 0 by ring]
    have hmapmap : List.map (Prod.map (ModeParam.scaleKa c) (ModeState.scaleAmpl c))
        (params.zip sts) =
        (params.zip sts).map (fun pc => (pc.1.scaleKa c, pc.2.scaleAmpl c)) := by
      refine List.map_congr_left ?_
      intro pc hpc
      rfl
    rw [hmapmap, timeStep_scale]
    cases hts : timeStep O g step t fuel (params.zip sts) cnt 0 with
    | none => simp [hts]
    | some r =>
      obtain ⟨sts2, cnt2, v⟩ := r
      simp only [Option.map_some']
      rw [ih]
      cases hmp : mainPass O g step fuel params ts sts2 cnt2 with
      | none => simp [hts, hmp]
      | some r2 => simp [hts, hmp]

theorem Quad.get?_smul (c : ℚ) (q : Quad) (i : Nat) :
    (q.smul c).get? i = (q.get? i).map (fun x => c * x) := by
  cases q with
  | scalar x => simp [Quad.smul, Quad.get?]
  | vec xs => simp [Quad.smul, Quad.get?, List.get?_map]

theorem buildStates_scale (c : ℚ) (qs qc : Quad) (lastK : List ℚ) (step : ℚ) :
    ∀ idx, buildStates (qs.smul c) (qc.smul c) lastK step idx =
      (buildStates qs qc lastK step idx).map (List.map (ModeState.scaleAmpl c)) := by
  intro idx
  induction idx with
  | nil => simp [buildStates]
  | cons i rest ih =>
    simp only [buildStates, Quad.get?_smul]
    cases h1 : qs.get? i with
    | none => simp
    | some sv =>
      cases h2 : qc.get? i with
      | none => simp
      | some cv =>
        cases h3 : lastK.get? i with
        | none => simp
        | some lv =>
          simp only [Option.map_some']
          rw [ih]
          cases buildStates qs qc lastK step rest with
          | none => simp
          | some sts => simp [ModeState.scaleAmpl]

theorem params_scale (O : Oracles) (step c : ℚ) (freq ampl eta : List ℚ) :
    List.zipWith (fun f ek => { freq := f, eta := ek.1, ka := ek.2 : ModeParam })
      freq (eta.zip ((kickAmplitude O step ampl eta).map (fun x => c * x))) =
      (List.zipWith (fun f ek => { freq := f, eta := ek.1, ka := ek.2 : ModeParam })
        freq (eta.zip (kickAmplitude O step ampl eta))).map (ModeParam.scaleKa c) := by
  rw [List.zip_map_right, List.map_zipWith]
  rw [List.zipWith_map_right]
  refine zipWith_ext (fun a b => ?_) _ _
  simp [Prod.map, ModeParam.scaleKa]

theorem warmup_scale_zero (c : ℚ) (damp ka : List ℚ) (g : Nat → ℚ) (n : Nat) :
    warmup damp (ka.map (fun x => c * x)) g n (.scalar 0, .scalar 0, 0) =
      ((warmup damp ka g n (.scalar 0, .scalar 0, 0)).1.smul c,
        (warmup damp ka g n (.scalar 0, .scalar 0, 0)).2.1.smul c,
        (warmup damp ka g n (.scalar 0, .scalar 0, 0)).2.2) := by
  have h0 : (Quad.scalar 0) = (Quad.scalar 0).smul c := by simp [Quad.smul]
  calc warmup damp (ka.map (fun x => c * x)) g n (.scalar 0, .scalar 0, 0)
      = warmup damp (ka.map (fun x => c * x)) g n
          ((Quad.scalar 0).smul c, (Quad.scalar 0).smul c, 0) := by rw [← h0]
    _ = _ := warmup_scale c damp ka g n _ _ _

/-- The preparation stage is equivariant under scaling every target
amplitude: the kick timestep, the clocks and the draw counter are
unchanged, while the per-mode kick amplitudes and warmed-up quadrature
components scale linearly. -/
theorem prepared_scale (O : Oracles) (g u : Nat → ℚ)
    (time freq ampl eta : List ℚ) (c : ℚ) :
    prepared O g u time freq (ampl.map (fun a => c * a)) eta =
      (prepared O g u time freq ampl eta).map
        (fun r => (r.1, r.2.1.map (ModeParam.scaleKa c),
          r.2.2.1.map (ModeState.scaleAmpl c), r.2.2.2)) := by
  simp only [prepared]
  cases hmx : kicktimestepOf eta with
  | none => simp [Except.map]
  | some step =>
    simp only [kickAmplitude_scale]
    cases hnw : NwarmupOf eta step with
    | none => simp [Except.map]
    | some nw =>
      simp only [warmup_scale_zero]
      cases ht0 : time.head? with
      | none => simp [Except.map]
      | some t0 =>
        simp only [buildStates_scale]
        cases hbs : buildStates
            (warmup (dampWarm O step eta) (kickAmplitude O step ampl eta) g
              nw.toNat (.scalar 0, .scalar 0, 0)).1
            (warmup (dampWarm O step eta) (kickAmplitude O step ampl eta) g
              nw.toNat (.scalar 0, .scalar 0, 0)).2.1
            ((List.range freq.length).map (fun i => (t0 - step) + step * u i))
            step (List.range freq.length) with
        | none => simp [Except.map]
        | some sts => simp [Except.map, params_scale]

/-- Scaling every target amplitude by `c`, with all other inputs and both
random streams held fixed, scales the whole run by `c`: errors and fuel
behaviour are untouched, and a returned signal is scaled pointwise. -/
theorem solarosc_scale (O : Oracles) (g u : Nat → ℚ) (fuel : Nat)
    (time freq ampl eta : List ℚ) (c : ℚ) :
    solarosc O g u fuel time freq (ampl.map (fun a => c * a)) eta =
      (solarosc O g u fuel time freq ampl eta).map
        (fun sig => sig.map (fun x => c * x)) := by
  simp only [solarosc, prepared_scale]
  cases hp : prepared O g u time freq ampl eta with
  | error err => simp [Except.map]
  | ok r =>
    obtain ⟨step, params, sts, cnt⟩ := r
    simp only [Except.map, mainPass_scale]
    cases hmp : mainPass O g step fuel params time sts cnt with
    | none => simp
    | some r2 => simp

/-! ### The claims -/

set_option maxRecDepth 1000000

/-- C3: scaling every target amplitude by a factor `c ≥ 0`, while the
frequencies, damping rates, output times and both random streams (the
seed) are held fixed, scales the returned signal exactly pointwise by
`c`; error outcomes and fuel behaviour are unchanged.  (The recurrence is
linear in `ampl` for every rational `c`; the hypothesis records the
claim's restriction to non-negative factors.) -/
theorem claim_C3_ampl_scaling (O : Oracles) (g u : Nat → ℚ) (fuel : Nat)
    (time freq ampl eta : List ℚ) (c : ℚ) (hc : 0 ≤ c) :
    solarosc O g u fuel time freq (ampl.map (fun a => c * a)) eta =
      (solarosc O g u fuel time freq ampl eta).map
        (fun sig => sig.map (fun x => c * x)) :=
  solarosc_scale O g u fuel time freq ampl eta c

/-- C3 witness: doubling the single amplitude of a concrete one-mode run
doubles the returned signal. -/
theorem claim_C3_witness :
    solarosc Otriv gzero uzero 10 [0] [1] ([1].map (fun a => (2:ℚ) * a)) [1] =
      (solarosc Otriv gzero uzero 10 [0] [1] [1] [1]).map
        (fun sig => sig.map (fun x => (2:ℚ) * x)) :=
  claim_C3_ampl_scaling Otriv gzero uzero 10 [0] [1] [1] [1] 2 (by norm_num)

/-- C4 counterexample: on the concrete input `eta = [-1]` (a negative
damping rate) the source does not fail fast with a domain error: it
derives `kicktimestep = -1/100`, performs `Nwarmup = 100` warm-up kicks —
simulation work — and then the pending-kick loop never terminates (every
fuel bound is exhausted, here 50); the outcome is non-termination, not a
rejected input. -/
theorem claim_C4_counterexample :
    solarosc Otriv gzero uzero 50 [0] [1] [1] [-1] = .error .noFuel ∧
      solarosc Otriv gzero uzero 50 [0] [1] [1] [-1] ≠ .error .domainError ∧
      NwarmupOf [-1] (1 / (-1) / 100) = some 100 := by
  refine ⟨by with_unfolding_all rfl, ?_, by with_unfolding_all rfl⟩
  intro h
  rw [show solarosc Otriv gzero uzero 50 [0] [1] [1] [-1] = .error .noFuel
    from by with_unfolding_all rfl] at h
  simp at h

/-- C4 amended: the source performs no validation of `eta`.  With a
negative maximal damping rate the derived kick timestep is negative, and
any pending-kick loop that is entered (`next_kicktime <= time[j]`) never
terminates, for every fuel bound: the call diverges instead of rejecting
the input, and no domain error is ever raised. -/
theorem claim_C4_amended (O : Oracles) (g : Nat → ℚ) (eta : List ℚ) (mx : ℚ)
    (hmx : eta.max? = some mx) (hneg : mx < 0) :
    ∃ s, kicktimestepOf eta = some s ∧ s < 0 ∧
      ∀ (e ka t : ℚ) (st : ModeState) (cnt fuel : Nat), st.nextKick ≤ t →
        kickLoop O g e s ka t fuel (st, cnt) = none := by
  refine ⟨1 / mx / 100, kicktimestep_eq hmx, ?_, ?_⟩
  · have h1 : 1 / mx < 0 := one_div_neg.mpr hneg
    exact div_neg_of_neg_of_pos h1 (by norm_num)
  · intro e ka t st cnt fuel hc
    refine kickLoop_diverges ?_ fuel st cnt hc
    have h1 : 1 / mx < 0 := one_div_neg.mpr hneg
    exact le_of_lt (div_neg_of_neg_of_pos h1 (by norm_num))

/-- C4 amended witness: concrete divergence for `eta = [-1]`. -/
theorem claim_C4_amended_witness :
    ∃ s, kicktimestepOf [-1] = some s ∧ s < 0 ∧
      ∀ (e ka t : ℚ) (st : ModeState) (cnt fuel : Nat), st.nextKick ≤ t →
        kickLoop Otriv gzero e s ka t fuel (st, cnt) = none :=
  claim_C4_amended Otriv gzero [-1] (-1) (by with_unfolding_all rfl) (by norm_num)

/-- C5 counterexample: with zero modes the source does not return an
all-zero sequence of length `len(time)`: `max(eta)` is taken over an
empty sequence, which raises (ValueError) — the call crashes instead of
returning `[0, 0]`. -/
theorem claim_C5_counterexample :
    solarosc Otriv gzero uzero 5 [0, 1] [] [] [] = .error .valueError ∧
      solarosc Otriv gzero uzero 5 [0, 1] [] [] [] ≠ .ok [0, 0] := by
  refine ⟨by with_unfolding_all rfl, ?_⟩
  intro h
  rw [show solarosc Otriv gzero uzero 5 [0, 1] [] [] [] = .error .valueError
    from by with_unfolding_all rfl] at h
  simp at h

/-- C5 amended: degenerate inputs crash rather than returning a
degenerate result: with zero modes `max(eta)` raises on the empty
sequence (ValueError, before any shapes are combined, so for any
output-time grid, any `freq`/`ampl` and any fuel), and with zero output
times — given well-formed mode arrays of equal length with positive
damping rates, the domain on which the elementwise model coincides with
numpy broadcasting — `time[0]` raises (IndexError) after the warm-up,
again for any fuel.  (A length mismatch among `freq`/`ampl`/`eta` makes
the source raise a broadcast ValueError at line 97 instead, which is why
this conjunct is restricted to equal lengths.) -/
theorem claim_C5_amended (O : Oracles) (g u : Nat → ℚ) (fuel : Nat) :
    (∀ time freq ampl, solarosc O g u fuel time freq ampl [] = .error .valueError) ∧
    (∀ freq ampl eta, eta ≠ [] → freq.length = eta.length →
      ampl.length = eta.length → (∀ e ∈ eta, 0 < e) →
      solarosc O g u fuel [] freq ampl eta = .error .indexError) := by
  constructor
  · intro time freq ampl
    simp [solarosc, prepared, kicktimestepOf, List.max?]
  · intro freq ampl eta hne hlf hla hpos
    obtain ⟨mx, hmx⟩ := max?_isSome_of_ne_nil hne
    obtain ⟨mn, hmn⟩ := min?_isSome_of_ne_nil hne
    simp [solarosc, prepared, kicktimestep_eq hmx, NwarmupOf, hmn, List.head?]

/-- C5 amended witness: concrete crashes for zero modes and for an empty
output-time grid with one well-formed mode. -/
theorem claim_C5_amended_witness :
    solarosc Otriv gzero uzero 1 [3] [] [] [] = .error .valueError ∧
      solarosc Otriv gzero uzero 1 [] [1] [1] [1] = .error .indexError :=
  ⟨(claim_C5_amended Otriv gzero uzero 1).1 [3] [] [],
    (claim_C5_amended Otriv gzero uzero 1).2 [1] [1] [1] (by simp) rfl rfl
      (by intro e he; rw [List.mem_singleton] at he; rw [he]; norm_num)⟩

/-- C6: for a valid input the derivation stage computes the single global
kick timestep `1 / (100 * max(eta))` — one rational value, fixed for the
run and shared by all modes in `prepared` — and the per-mode constant
`kick_amplitude[i] = ampl[i] * sqrt(kicktimestep * eta[i])`. -/
theorem claim_C6_derived_constants (O : Oracles) (ampl eta : List ℚ) (mx : ℚ)
    (hmx : eta.max? = some mx) (hpos : ∀ e ∈ eta, 0 < e) :
    kicktimestepOf eta = some (1 / (100 * mx)) ∧
    ∀ i a e, ampl.get? i = some a → eta.get? i = some e →
      (kickAmplitude O (1 / (100 * mx)) ampl eta).get? i =
        some (a * O.sqrt ((1 / (100 * mx)) * e)) := by
  constructor
  · rw [kicktimestep_eq hmx, div_div_collapse]
  · intro i a e ha he
    simp only [kickAmplitude, List.get?_zipWith, ha, he]

/-- C6 witness: concrete derived constants for `ampl = [3]`, `eta = [2]`. -/
theorem claim_C6_witness :
    kicktimestepOf [2] = some (1 / (100 * 2)) ∧
      (kickAmplitude Otriv (1 / (100 * 2)) [3] [2]).get? 0 =
        some (3 * Otriv.sqrt ((1 / (100 * 2)) * 2)) :=
  ⟨(claim_C6_derived_constants Otriv [3] [2] 2 (by with_unfolding_all rfl)
      (by intro e he; rw [List.mem_singleton] at he; rw [he]; norm_num)).1,
    (claim_C6_derived_constants Otriv [3] [2] 2 (by with_unfolding_all rfl)
      (by intro e he; rw [List.mem_singleton] at he; rw [he]; norm_num)).2
      0 3 2 rfl rfl⟩

/-- C1: whenever the run returns a signal, the signal has one value per
output time, and the value at output index `j` is exactly the sum over
all modes of `exp(-eta[i] * (time[j] - last_kicktime[i])) *
(amplsin[i] * sin(2 pi freq[i] time[j]) + amplcos[i] * cos(2 pi freq[i]
time[j]))` (`modeContrib`, summed by `sigSum`), evaluated on the per-mode
states obtained after all pending kicks up to `time[j]` (the kicks-only
state trace) — with no hidden scaling. -/
theorem claim_C1_signal_formula (O : Oracles) (g u : Nat → ℚ) (fuel : Nat)
    (time freq ampl eta : List ℚ) (step : ℚ) (params : List ModeParam)
    (sts : List ModeState) (cnt : Nat) (sig : List ℚ)
    (stsF : List ModeState) (cntF : Nat)
    (hp : prepared O g u time freq ampl eta = .ok (step, params, sts, cnt))
    (hlen : params.length = sts.length)
    (hm : mainPass O g step fuel params time sts cnt = some (sig, stsF, cntF)) :
    solarosc O g u fuel time freq ampl eta = .ok sig ∧
    sig.length = time.length ∧
    ∃ tr, stateTrace O g step fuel params time sts cnt = some tr ∧
      ∀ j t, time.get? j = some t →
        ∃ trj, tr.get? j = some trj ∧ sig.get? j = some (sigSum O t params trj) := by
  obtain ⟨tr, htr, hsl, -, hidx⟩ := mainPass_stateTrace hlen hm
  refine ⟨?_, hsl, tr, htr, ?_⟩
  · simp only [solarosc, hp, hm]
  · intro j t hj
    obtain ⟨trj, htrj, -, hsig⟩ := hidx j t hj
    exact ⟨trj, htrj, hsig⟩

/-- C1 witness: a concrete one-mode, one-time run returning `[0]`. -/
theorem claim_C1_witness :
    solarosc Otriv gzero uzero 10 [0] [1] [1] [1] = .ok [0] ∧
      ([0] : List ℚ).length = ([0] : List ℚ).length :=
  have h := claim_C1_signal_formula Otriv gzero uzero 10 [0] [1] [1] [1]
    (1 / 100)
    [{ freq := 1, eta := 1, ka := 1 }]
    [{ amplsin := 0, amplcos := 0, lastKick := -(1 / 100), nextKick := 0 }]
    200 [0]
    [{ amplsin := 0, amplcos := 0, lastKick := 0, nextKick := 1 / 100 }]
    202
    (by with_unfolding_all rfl) (by rfl) (by with_unfolding_all rfl)
  ⟨h.1, h.2.1⟩

/-- C2: on a valid input (positive damping rates, non-decreasing output
times, uniform draws in `[0, 1)`), every post-kick-loop state in the
kicks-only trace started from the prepared initial states satisfies
`last_kicktime <= time[j] < next_kicktime`, and `next_kicktime -
last_kicktime` equals the fixed kick timestep — at every output index
`j`, not just the last. -/
theorem claim_C2_clock_invariant (O : Oracles) (g u : Nat → ℚ) (fuel : Nat)
    (time freq ampl eta : List ℚ) (t0 : ℚ) (ts : List ℚ) (step : ℚ)
    (params : List ModeParam) (sts : List ModeState) (cnt : Nat)
    (tr : List (List ModeState))
    (htime : time = t0 :: ts)
    (hchain : time.Chain' (fun a b => a ≤ b))
    (hfreq : freq ≠ [])
    (hla : ampl.length = freq.length) (hle : eta.length = freq.length)
    (hpos : ∀ e ∈ eta, 0 < e)
    (hu : ∀ n, 0 ≤ u n ∧ u n < 1)
    (hp : prepared O g u time freq ampl eta = .ok (step, params, sts, cnt))
    (htr : stateTrace O g step fuel params time sts cnt = some tr) :
    ∀ j t trj, time.get? j = some t → tr.get? j = some trj →
      ∀ st ∈ trj,
        st.lastKick ≤ t ∧ t < st.nextKick ∧ st.nextKick - st.lastKick = step := by
  obtain ⟨mx, params', sts', cnt', hmx, hstep, hp', -, -, hgap, hinit⟩ :=
    prepared_ok_spec O g u htime hfreq hla hle hpos
  rw [hp] at hp'
  injection hp' with h2
  have hsteq : step = 1 / mx / 100 := congrArg (fun r => r.1) h2
  have hsts : sts = sts' := congrArg (fun r => r.2.2.1) h2
  have hinv := stateTrace_invariant htr hchain ?_
  · intro j t trj hj htrj st hst
    obtain ⟨ha, hb, hc⟩ := hinv j t trj hj htrj st hst
    exact ⟨ha, hb, by rw [hc]; ring⟩
  · intro t1 ht1 st hst
    rw [htime] at ht1
    simp only [List.head?] at ht1
    injection ht1 with ht1
    subst ht1
    have hg := hgap st (hsts ▸ hst)
    have hi := hinit hu st (hsts ▸ hst)
    exact ⟨by rw [hg, hsteq], le_of_lt hi.2⟩

/-- C2 witness: the invariant on a concrete one-mode, one-time run. -/
theorem claim_C2_witness :
    ({ amplsin := 0, amplcos := 0, lastKick := 0, nextKick := 1 / 100 }
        : ModeState).lastKick ≤ (0:ℚ) ∧
      (0:ℚ) < ({ amplsin := 0, amplcos := 0, lastKick := 0, nextKick := 1 / 100 }
        : ModeState).nextKick ∧
      ({ amplsin := 0, amplcos := 0, lastKick := 0, nextKick := 1 / 100 }
          : ModeState).nextKick -
        ({ amplsin := 0, amplcos := 0, lastKick := 0, nextKick := 1 / 100 }
          : ModeState).lastKick = 1 / 100 :=
  claim_C2_clock_invariant Otriv gzero uzero 10 [0] [1] [1] [1] 0 [] (1 / 100)
    [{ freq := 1, eta := 1, ka := 1 }]
    [{ amplsin := 0, amplcos := 0, lastKick := -(1 / 100), nextKick := 0 }]
    200
    [[{ amplsin := 0, amplcos := 0, lastKick := 0, nextKick := 1 / 100 }]]
    rfl (by simp) (by simp) rfl rfl
    (by intro e he; rw [List.mem_singleton] at he; rw [he]; norm_num)
    (fun n => ⟨by norm_num [uzero], by norm_num [uzero]⟩)
    (by with_unfolding_all rfl) (by with_unfolding_all rfl)
    0 0 [{ amplsin := 0, amplcos := 0, lastKick := 0, nextKick := 1 / 100 }]
    rfl rfl
    { amplsin := 0, amplcos := 0, lastKick := 0, nextKick := 1 / 100 }
    (List.mem_singleton.mpr rfl)

/-- C7: the warm-up count is `Nwarmup = min(20000, floor(1 / (min(eta) *
kicktimestep)))`, and iterating the warm-up loop from the zero-initialised
quadrature components applies, elementwise and with independent standard
draws per mode per iteration (distinct stream indices), the recurrence
`amplsin := exp(-eta * kicktimestep) * amplsin + kick_amplitude * z`, and
the same recurrence with its own draws for `amplcos`: after any `n ≥ 1`
iterations the `i`-th components equal the specification's scalar
recurrence `warmupScalar` driven by mode `i`'s own draws. -/
theorem claim_C7_warmup_spec (g : Nat → ℚ) (eta : List ℚ) (step mn : ℚ)
    (hmn : eta.min? = some mn) (damp ka : List ℚ) (M : Nat)
    (hd : damp.length = M) (hk : ka.length = M) (i : Nat) (hi : i < M) :
    NwarmupOf eta step = some (min 20000 ⌊1 / (mn * step)⌋) ∧
    ∀ n, 1 ≤ n →
      ∃ vs vc, (warmup damp ka g n (.scalar 0, .scalar 0, 0)).1 = .vec vs ∧
        (warmup damp ka g n (.scalar 0, .scalar 0, 0)).2.1 = .vec vc ∧
        vs.length = M ∧ vc.length = M ∧
        vs.get? i = some (warmupScalar (damp.getD i 0) (ka.getD i 0)
          (fun m => g (2 * M * m + i)) n) ∧
        vc.get? i = some (warmupScalar (damp.getD i 0) (ka.getD i 0)
          (fun m => g (2 * M * m + M + i)) n) := by
  constructor
  · simp only [NwarmupOf, hmn, Option.map_some', Option.some.injEq]
    rw [div_div]
  · intro n hn
    obtain ⟨-, -, hvec⟩ :=
      warmup_shape damp ka g hd hk n (.scalar 0, .scalar 0, 0)
        (Or.inl ⟨0, rfl⟩) (Or.inl ⟨0, rfl⟩)
    obtain ⟨⟨vs, hvs, hvsl⟩, ⟨vc, hvc, hvcl⟩⟩ := hvec hn
    obtain ⟨hats, hatc⟩ := warmup_at damp ka g hd hk hi n
    rw [hvs] at hats
    rw [hvc] at hatc
    refine ⟨vs, vc, hvs, hvc, hvsl, hvcl, ?_, ?_⟩
    · rw [get?_of_lt (by rw [hvsl]; exact hi)]
      simp only [Quad.at] at hats
      rw [hats]
    · rw [get?_of_lt (by rw [hvcl]; exact hi)]
      simp only [Quad.at] at hatc
      rw [hatc]

/-- C7 witness: the warm-up characterisation evaluated after one
iteration of a concrete one-mode configuration. -/
theorem claim_C7_witness :
    NwarmupOf [1] (1 / 100) = some (min 20000 ⌊(1 : ℚ) / (1 * (1 / 100))⌋) ∧
      ∃ vs vc, (warmup [1] [1] gzero 1 (.scalar 0, .scalar 0, 0)).1 = .vec vs ∧
        (warmup [1] [1] gzero 1 (.scalar 0, .scalar 0, 0)).2.1 = .vec vc ∧
        vs.length = 1 ∧ vc.length = 1 ∧
        vs.get? 0 = some (warmupScalar (([1] : List ℚ).getD 0 0)
          (([1] : List ℚ).getD 0 0) (fun m => gzero (2 * 1 * m + 0)) 1) ∧
        vc.get? 0 = some (warmupScalar (([1] : List ℚ).getD 0 0)
          (([1] : List ℚ).getD 0 0) (fun m => gzero (2 * 1 * m + 1 + 0)) 1) :=
  have h := claim_C7_warmup_spec gzero [1] (1 / 100) 1
    (by with_unfolding_all rfl) [1] [1] 1 rfl rfl 0 (by norm_num)
  ⟨h.1, h.2 1 (le_refl 1)⟩

/-- C8: the final per-output-time sampling step mutates only the
accumulated signal value: the per-mode states and the draw counter
produced by the full sweep equal those of the kicks-only evolution (so no
kick is applied and no randomness is drawn by the sampling read, and
`last_kicktime`, `next_kicktime`, `amplsin`, `amplcos` are those left by
the pending-kick loops), while the returned value is the starting
accumulator plus the mode-contribution sum. -/
theorem claim_C8_sampling_frame (O : Oracles) (g : Nat → ℚ) (step t : ℚ)
    (fuel : Nat) (l : List (ModeParam × ModeState)) (cnt : Nat) (acc : ℚ)
    (sts : List ModeState) (cnt2 : Nat) (v : ℚ)
    (h : timeStep O g step t fuel l cnt acc = some (sts, cnt2, v)) :
    kicksOnly O g step t fuel l cnt = some (sts, cnt2) ∧
      v = acc + sigSum O t (l.map Prod.fst) sts :=
  ⟨timeStep_states h, (timeStep_value h).2⟩

/-- C8 witness: a concrete sweep of one mode with no pending kick leaves
the state and counter untouched and adds one contribution. -/
theorem claim_C8_witness :
    kicksOnly Otriv gzero (1 / 100) 0 7
        [({ freq := 1, eta := 1, ka := 1 },
          { amplsin := 2, amplcos := 3, lastKick := 0, nextKick := 5 })] 11 =
      some ([{ amplsin := 2, amplcos := 3, lastKick := 0, nextKick := 5 }], 11) ∧
      (3 : ℚ) + 3 = 3 + sigSum Otriv 0
        [{ freq := 1, eta := 1, ka := 1 }]
        [{ amplsin := 2, amplcos := 3, lastKick := 0, nextKick := 5 }] :=
  have h := claim_C8_sampling_frame Otriv gzero (1 / 100) 0 7
    [({ freq := 1, eta := 1, ka := 1 },
      { amplsin := 2, amplcos := 3, lastKick := 0, nextKick := 5 })] 11 3
    [{ amplsin := 2, amplcos := 3, lastKick := 0, nextKick := 5 }] 11 (3 + 3)
    (by with_unfolding_all rfl)
  ⟨h.1, by
    have h2 := h.2
    simp only [List.map_cons, List.map_nil] at h2
    exact h2⟩

/-- C9: on a valid input (a nonempty output grid, at least one mode,
equal array lengths, strictly positive damping rates) the simulation
terminates: some fuel bound makes every pending-kick loop exit (the kick
clock advances by the positive `kicktimestep` each iteration), and the
run returns a signal. -/
theorem claim_C9_termination (O : Oracles) (g u : Nat → ℚ)
    (time freq ampl eta : List ℚ) (t0 : ℚ) (ts : List ℚ)
    (htime : time = t0 :: ts) (hfreq : freq ≠ [])
    (hla : ampl.length = freq.length) (hle : eta.length = freq.length)
    (hpos : ∀ e ∈ eta, 0 < e) :
    ∃ fuel sig, solarosc O g u fuel time freq ampl eta = .ok sig := by
  obtain ⟨mx, params, sts, cnt, hmx, hstep, hp, -, -, -, -⟩ :=
    prepared_ok_spec O g u htime hfreq hla hle hpos
  obtain ⟨fuel, ⟨sig, stsF, cntF⟩, hmp⟩ :=
    @mainPass_total O g (1 / mx / 100) hstep params time sts cnt
  refine ⟨fuel, sig, ?_⟩
  simp only [solarosc, hp, hmp]

/-- C9 witness: termination on a concrete two-mode, two-time input. -/
theorem claim_C9_witness :
    ∃ fuel sig,
      solarosc Otriv gzero uzero fuel [0, 10] [1, 2] [1, 1] [1, 2] = .ok sig :=
  claim_C9_termination Otriv gzero uzero [0, 10] [1, 2] [1, 1] [1, 2] 0 [10]
    rfl (by simp) rfl rfl
    (by
      intro e he
      rw [List.mem_cons, List.mem_singleton] at he
      rcases he with rfl | rfl <;> norm_num)

/-- C10: for a nonempty `eta` with all entries positive, the warm-up
count satisfies `Nwarmup >= 100` (since `1 / (min(eta) * kicktimestep) =
100 * max(eta) / min(eta) >= 100` and the cap is `20000 >= 100`), so the
warm-up loop runs at least once; consequently the quadrature state,
initialised as the scalar `0.0`, is a vector with one entry per mode by
the time the main pass indexes it. -/
theorem claim_C10_nwarmup_floor (O : Oracles) (g : Nat → ℚ)
    (ampl eta : List ℚ) (mx mn : ℚ) (M : Nat)
    (hmx : eta.max? = some mx) (hmn : eta.min? = some mn)
    (hpos : ∀ e ∈ eta, 0 < e) (hle : eta.length = M) (hla : ampl.length = M) :
    ∃ nw, NwarmupOf eta (1 / mx / 100) = some nw ∧ 100 ≤ nw ∧ 1 ≤ nw.toNat ∧
      ∃ vs vc,
        (warmup (dampWarm O (1 / mx / 100) eta)
          (kickAmplitude O (1 / mx / 100) ampl eta) g nw.toNat
          (.scalar 0, .scalar 0, 0)).1 = .vec vs ∧
        (warmup (dampWarm O (1 / mx / 100) eta)
          (kickAmplitude O (1 / mx / 100) ampl eta) g nw.toNat
          (.scalar 0, .scalar 0, 0)).2.1 = .vec vc ∧
        vs.length = M ∧ vc.length = M := by
  obtain ⟨hnw, hnw100⟩ := NwarmupOf_ge_100 hmx hmn hpos
  refine ⟨min 20000 ⌊1 / mn / (1 / mx / 100)⌋, hnw, hnw100, by omega, ?_⟩
  have hd : (dampWarm O (1 / mx / 100) eta).length = M := by simp [dampWarm, hle]
  have hk : (kickAmplitude O (1 / mx / 100) ampl eta).length = M := by
    simp [kickAmplitude, List.length_zipWith, hla, hle]
  obtain ⟨-, -, hvec⟩ :=
    warmup_shape (dampWarm O (1 / mx / 100) eta)
      (kickAmplitude O (1 / mx / 100) ampl eta) g hd hk
      (min 20000 ⌊1 / mn / (1 / mx / 100)⌋).toNat (.scalar 0, .scalar 0, 0)
      (Or.inl ⟨0, rfl⟩) (Or.inl ⟨0, rfl⟩)
  obtain ⟨⟨vs, hvs, hvsl⟩, ⟨vc, hvc, hvcl⟩⟩ := hvec (by omega)
  exact ⟨vs, vc, hvs, hvc, hvsl, hvcl⟩

/-- C10 witness: concrete warm-up count and vector shape for a one-mode
input. -/
theorem claim_C10_witness :
    ∃ nw, NwarmupOf [1] (1 / 1 / 100) = some nw ∧ 100 ≤ nw ∧ 1 ≤ nw.toNat ∧
      ∃ vs vc,
        (warmup (dampWarm Otriv (1 / 1 / 100) [1])
          (kickAmplitude Otriv (1 / 1 / 100) [2] [1]) gzero nw.toNat
          (.scalar 0, .scalar 0, 0)).1 = .vec vs ∧
        (warmup (dampWarm Otriv (1 / 1 / 100) [1])
          (kickAmplitude Otriv (1 / 1 / 100) [2] [1]) gzero nw.toNat
          (.scalar 0, .scalar 0, 0)).2.1 = .vec vc ∧
        vs.length = 1 ∧ vc.length = 1 :=
  claim_C10_nwarmup_floor Otriv gzero [2] [1] 1 1 1
    (by with_unfolding_all rfl) (by with_unfolding_all rfl)
    (by intro e he; rw [List.mem_singleton] at he; rw [he]; norm_num)
    rfl rfl

end SolarOsc
